/-
Verification of the ATLK_irF strategic-operator evaluation engine of
pynusmv-tools (src/pynusmv_tools/atlk_irf/).

The symbolic set algebra (BDDs over state and input variables) is embedded
as finite sets over an exact product domain `σ × (Agent → Action)`:
a state component and one action component per agent.  Under this exact
encoding the NuSMV masks (`statesMask`, `inputsMask`, `statesInputsMask`)
are the full set, and `forsome` over a variable cube is existential
quantification over the corresponding components.

The multi-agent system itself (pynusmv_tools/mas.py and the pynusmv
library) is an external collaborator of the code under src/; its
operations are modelled from the spec (sections 3 and 6).  The functions of
src/pynusmv_tools/atlk_irf/common.py, utils.py and the five evalATLK
dispatchers are translated one-to-one below, with file/line references.
-/
import Mathlib

namespace ATLKirf

/-! ## The symbolic set algebra -/

/-- A BDD over state variables and one action variable per agent:
a set of (state, joint action) pairs. -/
abbrev BDD (σ Agent Action : Type) := Finset (σ × (Agent → Action))

variable {σ Agent Action : Type}
variable [DecidableEq σ] [Fintype σ]
variable [DecidableEq Agent] [Fintype Agent]
variable [DecidableEq Action] [Fintype Action]

/-- A cube of BDD variables: possibly the state variables, plus the action
variables of a set of agents. -/
structure Cube (Agent : Type) where
  quantState : Bool
  quantActs : Finset Agent
deriving DecidableEq

/-- The cube of all state variables (`mas.bddEnc.statesCube`). -/
def statesCube : Cube Agent := ⟨true, ∅⟩

/-- The cube of all input (action) variables (`mas.bddEnc.inputsCube`). -/
def inputsCube : Cube Agent := ⟨false, Finset.univ⟩

/-- The cube of the action variables of the given agents
(`mas.inputs_cube_for_agents(agents)`). -/
def inputsCubeFor (A : Finset Agent) : Cube Agent := ⟨false, A⟩

/-- Difference of cubes (the `-` of BDD cubes). -/
def Cube.minus (c d : Cube Agent) : Cube Agent :=
  ⟨c.quantState && !d.quantState, c.quantActs \ d.quantActs⟩

/-- Union of cubes (the `|` of BDD cubes). -/
def Cube.join (c d : Cube Agent) : Cube Agent :=
  ⟨c.quantState || d.quantState, c.quantActs ∪ d.quantActs⟩

/-- Existential quantification of a BDD over a cube (`X.forsome(cube)`):
a pair belongs to the result iff some pair of `X` agrees with it on every
component outside the cube. -/
def forsome (c : Cube Agent) (X : BDD σ Agent Action) : BDD σ Agent Action :=
  Finset.univ.filter fun m =>
    ∃ m' ∈ X, (c.quantState = true ∨ m'.1 = m.1) ∧
      ∀ a, a ∉ c.quantActs → m'.2 a = m.2 a

/-- `mas.bddEnc.statesMask`: with the exact encoding every state assignment
is valid, so the mask is the full set. -/
def statesMask : BDD σ Agent Action := Finset.univ

/-- `mas.bddEnc.inputsMask`: the full set under the exact encoding. -/
def inputsMask : BDD σ Agent Action := Finset.univ

/-- `mas.bddEnc.statesInputsMask`: the full set under the exact encoding. -/
def statesInputsMask : BDD σ Agent Action := Finset.univ

/-- A BDD is input-free when quantifying its inputs away does not change it:
it constrains only the state component. -/
def InputFree (X : BDD σ Agent Action) : Prop :=
  forsome (inputsCube : Cube Agent) X = X

/-! ## The fixpoint iterator

`pynusmv.utils.fixpoint` iterates a function from a starting set until the
value stops changing.  It is embedded with explicit fuel; over the finite
lattice of BDDs, `Fintype.card (σ × (Agent → Action)) + 1` steps suffice for
every monotone functional started at the bottom or the top element. -/

/-- Iterate `f` from `x`, stopping when a fixed point is reached or the fuel
runs out. -/
def fixiter {β : Type} [DecidableEq β] (f : β → β) : Nat → β → β
  | 0, x => x
  | n + 1, x => if f x = x then x else fixiter f n (f x)

/-- `pynusmv.utils.fixpoint`, specialised to BDDs, with enough fuel to reach
the fixed point of every monotone functional started at `false` or `true`. -/
def fixpoint (f : BDD σ Agent Action → BDD σ Agent Action)
    (start : BDD σ Agent Action) : BDD σ Agent Action :=
  fixiter f (Fintype.card (σ × (Agent → Action)) + 1) start

/-! ## The multi-agent system

Modelled from the spec (sections 3 and 6): the System is an external
collaborator exposing initial states, reachable states, fairness
constraints, a protocol, per-agent indistinguishability (here the kernel of
an observation function), pre/post images of the transition relation, and a
sampling function `pick_one_state_inputs` returning one element of a
non-empty set.  The CTL and epistemic operator evaluators (`ex`, `eg`,
`eu`, `nk`, `ne`, `nd`, `nc` of pynusmv_tools.atlkFO.eval) are assumed
already correct by the spec and appear as abstract fields. -/
structure MAS (σ Agent Action : Type) [DecidableEq σ] [Fintype σ]
    [DecidableEq Agent] [Fintype Agent]
    [DecidableEq Action] [Fintype Action] where
  step : σ → (Agent → Action) → σ → Bool
  init : Finset σ
  reachable : Finset σ
  fairness : List (BDD σ Agent Action)
  protocol : List Agent → BDD σ Agent Action
  obs : Agent → σ → σ
  groups : List (Agent × List Agent)
  pick : BDD σ Agent Action → σ × (Agent → Action)
  pick_mem : ∀ X : BDD σ Agent Action, X.Nonempty → pick X ∈ X
  ex : BDD σ Agent Action → BDD σ Agent Action
  eg : BDD σ Agent Action → BDD σ Agent Action
  eu : BDD σ Agent Action → BDD σ Agent Action → BDD σ Agent Action
  nk : Agent → BDD σ Agent Action → BDD σ Agent Action
  ne : List Agent → BDD σ Agent Action → BDD σ Agent Action
  nd : List Agent → BDD σ Agent Action → BDD σ Agent Action
  nc : List Agent → BDD σ Agent Action → BDD σ Agent Action

/-- Lift a set of states to a BDD (inputs unconstrained). -/
def lift (S : Finset σ) : BDD σ Agent Action :=
  Finset.univ.filter fun m => m.1 ∈ S

/-- Modelled from the spec: `mas.init` as a BDD over state variables. -/
def MAS.initStates (mas : MAS σ Agent Action) : BDD σ Agent Action :=
  lift mas.init

/-- Modelled from the spec: `mas.reachable_states` as a BDD over state
variables. -/
def MAS.reachable_states (mas : MAS σ Agent Action) : BDD σ Agent Action :=
  lift mas.reachable

/-- Modelled from the spec: `mas.weak_pre(states)` — the (state, action)
pairs having some successor in the state projection of `states`. -/
def MAS.weak_pre (mas : MAS σ Agent Action) (X : BDD σ Agent Action) :
    BDD σ Agent Action :=
  Finset.univ.filter fun m =>
    ∃ s', mas.step m.1 m.2 s' = true ∧ ∃ m' ∈ X, m'.1 = s'

/-- Modelled from the spec: `mas.post(states)` — the states reachable in
one step from a pair of `states`, as a BDD with inputs unconstrained. -/
def MAS.post (mas : MAS σ Agent Action) (X : BDD σ Agent Action) :
    BDD σ Agent Action :=
  Finset.univ.filter fun m => ∃ m' ∈ X, mas.step m'.1 m'.2 m.1 = true

/-- Modelled from the spec: `mas.equivalent_states(states, agents)` — the
states some agent of `agents` cannot distinguish from some state of
`states`, as a BDD with inputs unconstrained. -/
def MAS.equivalent_states (mas : MAS σ Agent Action)
    (X : BDD σ Agent Action) (agents : Finset Agent) : BDD σ Agent Action :=
  Finset.univ.filter fun m =>
    ∃ m' ∈ X, ∃ a ∈ agents, mas.obs a m.1 = mas.obs a m'.1

/-! ## The Filter Engine (src/pynusmv_tools/atlk_irf/common.py) -/

/-- common.py:20-51 (`pre_ce`): states with some move of `moves` for the
coalition all of whose completions by the other agents lead inside
`states`. -/
def pre_ce (mas : MAS σ Agent Action) (agents : List Agent)
    (states moves : BDD σ Agent Action) : BDD σ Agent Action :=
  forsome inputsCube
    ((forsome (Cube.minus inputsCube (inputsCubeFor agents.toFinset))
        ((forsome (Cube.minus inputsCube (inputsCubeFor agents.toFinset))
            (mas.weak_pre
              ((forsome inputsCube states ∩ statesMask)ᶜ ∩ statesMask)))ᶜ ∩
          mas.weak_pre (forsome inputsCube states ∩ statesMask))) ∩
      (forsome (Cube.minus inputsCube (inputsCubeFor agents.toFinset)) moves ∩
        statesInputsMask))

/-- common.py:54-71 (`stay_ce`): the greatest fixpoint
`nu Z. states_2 | (states_1 & pre_ce(Z, moves))`. -/
def stay_ce (mas : MAS σ Agent Action) (agents : List Agent)
    (states_1 states_2 moves : BDD σ Agent Action) : BDD σ Agent Action :=
  fixpoint (fun Z =>
    (forsome inputsCube states_2 ∩ statesMask) ∪
      ((forsome inputsCube states_1 ∩ statesMask) ∩
        pre_ce mas agents Z moves)) Finset.univ

/-- common.py:74-93 (`nfair_ce`): states from which the coalition cannot
avoid a fair path using `moves`; empty when there are no fairness
constraints. -/
def nfair_ce (mas : MAS σ Agent Action) (agents : List Agent)
    (moves : BDD σ Agent Action) : BDD σ Agent Action :=
  if mas.fairness = [] then ∅
  else
    fixpoint (fun Z =>
      mas.fairness.foldl (fun res fc =>
        res ∪ pre_ce mas agents
          (stay_ce mas agents
            (Z ∪ ((forsome inputsCube fc)ᶜ ∩ statesMask)) ∅ moves)
          moves) ∅) ∅

/-- common.py:96-107 (`filter_cex`). -/
def filter_cex (mas : MAS σ Agent Action) (agents : List Agent)
    (states moves : BDD σ Agent Action) : BDD σ Agent Action :=
  pre_ce mas agents (states ∪ nfair_ce mas agents moves) moves

/-- common.py:110-150 (`filter_ceu`): the least fixpoint
`mu Z. states_2 | (states_1 & pre_ce(Z, moves))`, refined per fairness
constraint when constraints exist. -/
def filter_ceu (mas : MAS σ Agent Action) (agents : List Agent)
    (states_1 states_2 moves : BDD σ Agent Action) : BDD σ Agent Action :=
  if mas.fairness = [] then
    fixpoint (fun Z =>
      (forsome inputsCube states_2 ∩ statesMask) ∪
        ((forsome inputsCube states_1 ∩ statesMask) ∩
          pre_ce mas agents Z moves)) ∅
  else
    fixpoint (fun Z =>
      (mas.fairness.foldl (fun res fc =>
        res ∪ pre_ce mas agents
          (stay_ce mas agents
            (((forsome inputsCube states_1 ∩ statesMask) ∪
                (forsome inputsCube states_2 ∩ statesMask) ∪
                nfair_ce mas agents moves) ∩
              (Z ∪ ((forsome inputsCube fc)ᶜ ∩ statesMask)))
            ((forsome inputsCube states_2 ∩ statesMask) ∩
              (Z ∪ ((forsome inputsCube fc)ᶜ ∩ statesMask)))
            moves)
          moves) (forsome inputsCube states_2 ∩ statesMask)) ∩
      ((forsome inputsCube states_1 ∩ statesMask) ∪
        (forsome inputsCube states_2 ∩ statesMask) ∪
        nfair_ce mas agents moves)) ∅

/-- common.py:153-182 (`filter_cew`): the same equation as a greatest
fixpoint; with fairness constraints it is `stay_ce` of the enlarged
arguments. -/
def filter_cew (mas : MAS σ Agent Action) (agents : List Agent)
    (states_1 states_2 moves : BDD σ Agent Action) : BDD σ Agent Action :=
  if mas.fairness = [] then
    fixpoint (fun Z =>
      (forsome inputsCube states_2 ∩ statesMask) ∪
        ((forsome inputsCube states_1 ∩ statesMask) ∩
          pre_ce mas agents Z moves)) Finset.univ
  else
    stay_ce mas agents
      ((forsome inputsCube states_1 ∩ statesMask) ∪
        (forsome inputsCube states_2 ∩ statesMask) ∪
        nfair_ce mas agents moves)
      (forsome inputsCube states_2 ∩ statesMask) moves

/-! ## The Split Engine (src/pynusmv_tools/atlk_irf/common.py)

The Python generators are embedded as list-producing functions.  The
`while` loops and the recursion of `split_agent` terminate because the
remaining move set strictly shrinks at every iteration; this is made
explicit through a fuel argument, always called with fuel strictly greater
than the cardinality of the move set, which the termination theorems below
prove sufficient. -/

/-- common.py:364-381 (`get_equiv_class`): the group-knowledge equivalence
class of (the states of) `states`, intersected with the reachable
states. -/
def get_equiv_class (mas : MAS σ Agent Action) (agents : List Agent)
    (states : BDD σ Agent Action) : BDD σ Agent Action :=
  agents.foldl (fun res agent =>
    res ∪ (mas.equivalent_states states {agent} ∩ mas.reachable_states))
    states

/-- common.py:384-401 (`is_conflicting`): whether the equivalence class
contains a move whose action for `agent` differs from that of a sampled
move. -/
def is_conflicting (fsm : MAS σ Agent Action) (agents : List Agent)
    (agent : Agent) (eqclass : BDD σ Agent Action) : Bool :=
  decide ((eqclass \
    (eqclass ∩
      forsome (Cube.join statesCube
          (Cube.minus inputsCube (inputsCubeFor {agent})))
        {fsm.pick eqclass})) ≠ ∅)

/-- common.py:404-422 (`split_conflicting`): split an equivalence class
into non-conflicting subsets, one sampled action at a time.  Called with
`fuel = eqclass.card`, which suffices since each step removes a non-empty
subset. -/
def split_conflicting (mas : MAS σ Agent Action) (agents : List Agent)
    (agent : Agent) : Nat → BDD σ Agent Action → List (BDD σ Agent Action)
  | 0, _ => []
  | fuel + 1, eqclass =>
    if eqclass = ∅ then []
    else
      (eqclass ∩
          forsome (Cube.join statesCube
              (Cube.minus inputsCube (inputsCubeFor {agent})))
            {mas.pick eqclass}) ::
        split_conflicting mas agents agent fuel
          (eqclass \
            (eqclass ∩
              forsome (Cube.join statesCube
                  (Cube.minus inputsCube (inputsCubeFor {agent})))
                {mas.pick eqclass}))

/-- common.py:444-472: the `while` loop of `split_one`, accumulating the
non-conflicting classes in `common` and stopping at the first conflicting
class.  Called with `fuel = moves.card + 1`. -/
def split_one_aux (mas : MAS σ Agent Action) (agents : List Agent)
    (agent : Agent) :
    Nat → BDD σ Agent Action → BDD σ Agent Action →
      List (BDD σ Agent Action × BDD σ Agent Action × BDD σ Agent Action)
  | 0, _, _ => []
  | fuel + 1, common, moves =>
    if moves = ∅ then [(common, ∅, ∅)]
    else
      if is_conflicting mas agents agent
          (moves ∩ get_equiv_class mas [agent]
            (forsome inputsCube {mas.pick moves})) then
        (split_conflicting mas agents agent
            (moves ∩ get_equiv_class mas [agent]
              (forsome inputsCube {mas.pick moves})).card
            (moves ∩ get_equiv_class mas [agent]
              (forsome inputsCube {mas.pick moves}))).map
          (fun nc => (common, nc,
            moves \ (moves ∩ get_equiv_class mas [agent]
              (forsome inputsCube {mas.pick moves}))))
      else
        split_one_aux mas agents agent fuel
          (common ∪ (moves ∩ get_equiv_class mas [agent]
            (forsome inputsCube {mas.pick moves})))
          (moves \ (moves ∩ get_equiv_class mas [agent]
            (forsome inputsCube {mas.pick moves})))

/-- common.py:425-472 (`split_one`): triples of the common non-conflicting
part already encountered, a split, and the rest of the moves to split. -/
def split_one (mas : MAS σ Agent Action) (agents : List Agent)
    (agent : Agent) (moves : BDD σ Agent Action) :
    List (BDD σ Agent Action × BDD σ Agent Action × BDD σ Agent Action) :=
  if moves = ∅ then [(moves, moves, moves)]
  else split_one_aux mas agents agent (moves.card + 1) ∅ moves

/-- common.py:475-490: the recursion of `split_agent`, with fuel
`moves.card + 1`: sufficient because the rest component of every
`split_one` triple is strictly smaller than its input. -/
def split_agent_aux (mas : MAS σ Agent Action) (agents : List Agent)
    (agent : Agent) : Nat → BDD σ Agent Action → List (BDD σ Agent Action)
  | 0, _ => []
  | fuel + 1, moves =>
    if moves = ∅ then [∅]
    else
      (split_one mas agents agent moves).flatMap fun t =>
        (split_agent_aux mas agents agent fuel t.2.2).map fun strat =>
          t.1 ∪ t.2.1 ∪ strat

/-- common.py:475-490 (`split_agent`): the greatest subsets of `moves`
non-conflicting for `agent`. -/
def split_agent (mas : MAS σ Agent Action) (agents : List Agent)
    (agent : Agent) (moves : BDD σ Agent Action) :
    List (BDD σ Agent Action) :=
  split_agent_aux mas agents agent (moves.card + 1) moves

/-- common.py:493-511 (`split`): all greatest non-conflicting subsets of
`moves` for the coalition, processing agents one at a time. -/
def split (mas : MAS σ Agent Action) :
    List Agent → BDD σ Agent Action → List (BDD σ Agent Action)
  | [], moves => [moves]
  | agent :: others, moves =>
    (split mas others moves).flatMap fun others_strat =>
      split_agent mas (agent :: others) agent others_strat

/-- The union of a list of BDDs (the union of all yielded strategies). -/
def unionList (l : List (BDD σ Agent Action)) : BDD σ Agent Action :=
  l.foldl (· ∪ ·) ∅

/-- The claim's notion of a strategy free of conflicts for an agent: any
two of its moves at states the agent cannot distinguish agree on that
agent's action. -/
def NonConflicting (mas : MAS σ Agent Action) (agent : Agent)
    (strat : BDD σ Agent Action) : Prop :=
  ∀ m1 ∈ strat, ∀ m2 ∈ strat,
    mas.obs agent m1.1 = mas.obs agent m2.1 → m1.2 agent = m2.2 agent

instance (mas : MAS σ Agent Action) (agent : Agent)
    (strat : BDD σ Agent Action) :
    Decidable (NonConflicting mas agent strat) := by
  unfold NonConflicting; infer_instance

/-! ## The Memoization Layer (partial.py:490-516, early.py:741-767)

The cache maps (System, Formula) to a (sat, unsat) partition; for a fixed
key it is an optional pair threaded through the calls.  `orig` stands for
the un-memoized `evalATLK` specialised to that key. -/

/-- partial.py:492-514 / early.py:743-765 (`__cached_evalATLK`): one call
against the current cache entry.  A `None` states argument resolves to the
initial states; only `remaining = states - (sat | unsat)` is passed to the
underlying algorithm and the result is folded back into the entry.
Returns the updated cache entry and the returned set. -/
def cached_evalATLK (orig : BDD σ Agent Action → BDD σ Agent Action)
    (initStates : BDD σ Agent Action)
    (cache : Option (BDD σ Agent Action × BDD σ Agent Action))
    (statesOpt : Option (BDD σ Agent Action)) :
    (BDD σ Agent Action × BDD σ Agent Action) × BDD σ Agent Action :=
  if (statesOpt.getD initStates \
      ((cache.getD (∅, ∅)).1 ∪ (cache.getD (∅, ∅)).2)) ≠ ∅ then
    (((cache.getD (∅, ∅)).1 ∪
        orig (statesOpt.getD initStates \
          ((cache.getD (∅, ∅)).1 ∪ (cache.getD (∅, ∅)).2)),
      (cache.getD (∅, ∅)).2 ∪
        ((statesOpt.getD initStates \
            ((cache.getD (∅, ∅)).1 ∪ (cache.getD (∅, ∅)).2)) \
          orig (statesOpt.getD initStates \
            ((cache.getD (∅, ∅)).1 ∪ (cache.getD (∅, ∅)).2)))),
     (cache.getD (∅, ∅)).1 ∪
       orig (statesOpt.getD initStates \
         ((cache.getD (∅, ∅)).1 ∪ (cache.getD (∅, ∅)).2)))
  else
    (((cache.getD (∅, ∅)).1, (cache.getD (∅, ∅)).2),
     (cache.getD (∅, ∅)).1 ∪ ∅)

/-- A sequence of memoized calls for the same (System, Formula) key:
the cache entry produced by each call is passed to the next, and the
returned sets are collected. -/
def cached_run (orig : BDD σ Agent Action → BDD σ Agent Action)
    (initStates : BDD σ Agent Action) :
    Option (BDD σ Agent Action × BDD σ Agent Action) →
      List (Option (BDD σ Agent Action)) → List (BDD σ Agent Action)
  | _, [] => []
  | cache, q :: qs =>
    (cached_evalATLK orig initStates cache q).2 ::
      cached_run orig initStates
        (some (cached_evalATLK orig initStates cache q).1) qs

/-- Running unions: the i-th element is the union of the first i+1
elements of the input list. -/
def accUnions : List (BDD σ Agent Action) → List (BDD σ Agent Action)
  | [] => []
  | x :: l => x :: (accUnions l).map (fun y => x ∪ y)

/-! ## Utility functions (src/pynusmv_tools/atlk_irf/utils.py) -/

/-- utils.py:8-29 (`agents_in_group`), with explicit fuel bounding the
descent through group definitions: the source recursion diverges on cyclic
group definitions, and for acyclic ones the number of declared groups
bounds the depth. -/
def agents_in_group_fuel (mas : MAS σ Agent Action) :
    Nat → Agent → List Agent
  | 0, group => [group]
  | fuel + 1, group =>
    match mas.groups.lookup group with
    | some members =>
      members.foldl (fun agents agent =>
        if (mas.groups.lookup agent).isSome then
          agents ++ ((agents_in_group_fuel mas fuel agent).filter
            (fun a => decide (a ∉ agents)))
        else agents ++ [agent]) []
    | none => [group]

/-- utils.py:8-29 (`agents_in_group`). -/
def agents_in_group (mas : MAS σ Agent Action) (group : Agent) :
    List Agent :=
  agents_in_group_fuel mas (mas.groups.length + 1) group

/-- utils.py:32-43 (`agents_in_list`). -/
def agents_in_list (mas : MAS σ Agent Action) (agents : List Agent) :
    List Agent :=
  agents.foldl (fun result agent =>
    result ++ ((agents_in_group mas agent).filter
      (fun a => decide (a ∉ result)))) []

/-- utils.py:46-58 (`Eequiv`): states equivalent to some state of `states`
w.r.t. group knowledge. -/
def Eequiv (mas : MAS σ Agent Action) (agents : List Agent)
    (states : BDD σ Agent Action) : BDD σ Agent Action :=
  (agents_in_list mas agents).foldl (fun result agent =>
    result ∪ (mas.equivalent_states states {agent} ∩ mas.reachable_states))
    ∅

/-- utils.py:61-70 (`Dequiv`): states equivalent w.r.t. distributed
knowledge; the coalition is passed as one set of agents. -/
def Dequiv (mas : MAS σ Agent Action) (agents : List Agent)
    (states : BDD σ Agent Action) : BDD σ Agent Action :=
  mas.equivalent_states states agents.toFinset ∩ mas.reachable_states

/-- utils.py:85-92 (`reach`): states reachable from `states`. -/
def reach (mas : MAS σ Agent Action) (states : BDD σ Agent Action) :
    BDD σ Agent Action :=
  fixpoint (fun Z => states ∪ mas.post Z) ∅

/-! ## Formulas

Modelled from the spec (section 3): the immutable tagged AST of
pynusmv_tools.atlkFO.ast (not under src/).  An atom carries its denotation
as a set of states; a strategic kind carries a group as a list of
agent/group names. -/
inductive Formula (σ Agent : Type) where
  | TrueExp
  | FalseExp
  | Init
  | Reachable
  | Atom (value : Finset σ)
  | Not (child : Formula σ Agent)
  | And (left right : Formula σ Agent)
  | Or (left right : Formula σ Agent)
  | Implies (left right : Formula σ Agent)
  | Iff (left right : Formula σ Agent)
  | EX (child : Formula σ Agent)
  | AX (child : Formula σ Agent)
  | EG (child : Formula σ Agent)
  | AG (child : Formula σ Agent)
  | EU (left right : Formula σ Agent)
  | AU (left right : Formula σ Agent)
  | EF (child : Formula σ Agent)
  | AF (child : Formula σ Agent)
  | EW (left right : Formula σ Agent)
  | AW (left right : Formula σ Agent)
  | nK (agent : Agent) (child : Formula σ Agent)
  | K (agent : Agent) (child : Formula σ Agent)
  | nE (group : List Agent) (child : Formula σ Agent)
  | E (group : List Agent) (child : Formula σ Agent)
  | nD (group : List Agent) (child : Formula σ Agent)
  | D (group : List Agent) (child : Formula σ Agent)
  | nC (group : List Agent) (child : Formula σ Agent)
  | C (group : List Agent) (child : Formula σ Agent)
  | CEX (group : List Agent) (child : Formula σ Agent)
  | CAX (group : List Agent) (child : Formula σ Agent)
  | CEU (group : List Agent) (left right : Formula σ Agent)
  | CAU (group : List Agent) (left right : Formula σ Agent)
  | CEW (group : List Agent) (left right : Formula σ Agent)
  | CAW (group : List Agent) (left right : Formula σ Agent)
  | CEF (group : List Agent) (child : Formula σ Agent)
  | CAF (group : List Agent) (child : Formula σ Agent)
  | CEG (group : List Agent) (child : Formula σ Agent)
  | CAG (group : List Agent) (child : Formula σ Agent)

/-- The Python errors the dispatchers can raise. -/
inductive PyError (σ Agent : Type) where
  | nameError (name : String)
  | notImplemented (formula : Formula σ Agent)
  | exception (message : String)

/-- Modelled from the spec: `pynusmv.mc.eval_simple_expression` — an atom
denotes a set of states, carried by the atom itself in this embedding. -/
def eval_simple_expression (mas : MAS σ Agent Action) (value : Finset σ) :
    BDD σ Agent Action :=
  lift value

/-- utils.py:73-83 (`Cequiv`): the body evaluates
`BDD.false(fsm.bddEnc.DDmanager)`, but no name `fsm` is bound in utils.py
(the parameter is named `mas`), so every call raises
`NameError: name 'fsm' is not defined` before the fixpoint is computed. -/
def Cequiv (mas : MAS σ Agent Action) (agents : List Agent)
    (states : BDD σ Agent Action) :
    Except (PyError σ Agent) (BDD σ Agent Action) :=
  .error (.nameError "fsm")

/-- A termination measure for the naive, partial, early and backward
dispatchers: every operator rewrite of those dispatchers strictly
decreases it. -/
def wt : Formula σ Agent → Nat
  | .TrueExp => 1
  | .FalseExp => 1
  | .Init => 1
  | .Reachable => 1
  | .Atom _ => 1
  | .Not p => wt p + 1
  | .And p q => wt p + wt q + 1
  | .Or p q => wt p + wt q + 1
  | .Implies p q => wt p + wt q + 3
  | .Iff p q => 2 * wt p + 2 * wt q + 6
  | .EX p => wt p + 2
  | .AX p => wt p + 5
  | .EG p => wt p + 2
  | .AG p => wt p + 7
  | .EU p q => wt p + wt q + 2
  | .AU p q => wt p + 3 * wt q + 12
  | .EF p => wt p + 4
  | .AF p => wt p + 5
  | .EW p q => 2 * wt p + wt q + 6
  | .AW p q => wt p + 2 * wt q + 8
  | .nK _ p => wt p + 2
  | .K _ p => wt p + 5
  | .nE _ p => wt p + 2
  | .E _ p => wt p + 5
  | .nD _ p => wt p + 2
  | .D _ p => wt p + 5
  | .nC _ p => wt p + 2
  | .C _ p => wt p + 5
  | .CEX _ p => wt p + 2
  | .CAX _ p => wt p + 4
  | .CEU _ p q => wt p + wt q + 2
  | .CAU _ p q => wt p + 2 * wt q + 7
  | .CEW _ p q => wt p + wt q + 2
  | .CAW _ p q => wt p + 2 * wt q + 7
  | .CEF _ p => wt p + 4
  | .CAF _ p => wt p + 6
  | .CEG _ p => wt p + 4
  | .CAG _ p => wt p + 6

/-- A termination measure for the symbolic dispatcher, whose `EG` rewrites
into `EW` (while `EW` is computed directly, unlike in the other
dispatchers). -/
def wtS : Formula σ Agent → Nat
  | .TrueExp => 1
  | .FalseExp => 1
  | .Init => 1
  | .Reachable => 1
  | .Atom _ => 1
  | .Not p => wtS p + 1
  | .And p q => wtS p + wtS q + 1
  | .Or p q => wtS p + wtS q + 1
  | .Implies p q => wtS p + wtS q + 1
  | .Iff p q => wtS p + wtS q + 1
  | .EX p => wtS p + 2
  | .AX p => wtS p + 2
  | .EG p => wtS p + 4
  | .AG p => wtS p + 6
  | .EU p q => wtS p + wtS q + 2
  | .AU p q => wtS p + 2 * wtS q + 7
  | .EF p => wtS p + 4
  | .AF p => wtS p + 6
  | .EW p q => wtS p + wtS q + 2
  | .AW p q => wtS p + wtS q + 2
  | .nK _ p => wtS p + 2
  | .K _ p => wtS p + 2
  | .nE _ p => wtS p + 2
  | .E _ p => wtS p + 2
  | .nD _ p => wtS p + 2
  | .D _ p => wtS p + 2
  | .nC _ p => wtS p + 2
  | .C _ p => wtS p + 2
  | .CEX _ p => wtS p + 2
  | .CAX _ p => wtS p + 4
  | .CEU _ p q => wtS p + wtS q + 2
  | .CAU _ p q => wtS p + 2 * wtS q + 7
  | .CEW _ p q => wtS p + wtS q + 2
  | .CAW _ p q => wtS p + 2 * wtS q + 7
  | .CEF _ p => wtS p + 4
  | .CAF _ p => wtS p + 6
  | .CEG _ p => wtS p + 4
  | .CAG _ p => wtS p + 6

/-! ## The partial dispatcher (src/pynusmv_tools/atlk_irf/partial.py)

partial.py:23-323 (`evalATLK`): recursive descent over the formula AST.
The strategic terminal cases (partial.py:316-320) delegate to
`eval_strat`, taken here as the parameter `evalStrat`.  Errors are
modelled in an `Except` monad: the `AX` branch (partial.py:106-112)
builds `Not(EX(Not(spec.child)))`, but no name `spec` is bound in
partial.py (the parameter is named `formula`), so it raises
`NameError: name 'spec' is not defined`; the `nC` branch
(partial.py:239-246) calls `Cequiv`, which always raises. -/
def partial_evalATLK
    (evalStrat : MAS σ Agent Action → Formula σ Agent →
      BDD σ Agent Action → Bool →
      Except (PyError σ Agent) (BDD σ Agent Action))
    (mas : MAS σ Agent Action) (formula : Formula σ Agent)
    (statesOpt : Option (BDD σ Agent Action)) (pre_filtering : Bool) :
    Except (PyError σ Agent) (BDD σ Agent Action) :=
  let states := statesOpt.getD mas.initStates
  match formula with
  | .TrueExp => .ok states
  | .FalseExp => .ok ∅
  | .Init => .ok (mas.initStates ∩ states)
  | .Reachable => .ok (mas.reachable_states ∩ states)
  | .Atom v => .ok (eval_simple_expression mas v ∩ states)
  | .Not p => do
    let x ← partial_evalATLK evalStrat mas p (some states) pre_filtering
    .ok (states \ x)
  | .And p q => do
    let l ← partial_evalATLK evalStrat mas p (some states) pre_filtering
    let r ← partial_evalATLK evalStrat mas q (some states) pre_filtering
    .ok (l ∩ r)
  | .Or p q => do
    let l ← partial_evalATLK evalStrat mas p (some states) pre_filtering
    let r ← partial_evalATLK evalStrat mas q (some states) pre_filtering
    .ok (l ∪ r)
  | .Implies p q =>
    partial_evalATLK evalStrat mas (.Or (.Not p) q) (some states)
      pre_filtering
  | .Iff p q =>
    partial_evalATLK evalStrat mas
      (.Or (.And p q) (.And (.Not p) (.Not q))) (some states) pre_filtering
  | .EX p => do
    let x ← partial_evalATLK evalStrat mas p (some (mas.post states))
      pre_filtering
    .ok (mas.ex x ∩ states)
  | .AX _ => .error (.nameError "spec")
  | .EG p => do
    let x ← partial_evalATLK evalStrat mas p (some (reach mas states))
      pre_filtering
    .ok (mas.eg x ∩ states)
  | .AG p =>
    partial_evalATLK evalStrat mas (.Not (.EF (.Not p))) (some states)
      pre_filtering
  | .EU p q => do
    let l ← partial_evalATLK evalStrat mas p (some (reach mas states))
      pre_filtering
    let r ← partial_evalATLK evalStrat mas q (some (reach mas states))
      pre_filtering
    .ok (mas.eu l r)
  | .AU p q =>
    partial_evalATLK evalStrat mas
      (.Not (.Or (.EU (.Not q) (.And (.Not p) (.Not q))) (.EG (.Not q))))
      (some states) pre_filtering
  | .EF p =>
    partial_evalATLK evalStrat mas (.EU .TrueExp p) (some states)
      pre_filtering
  | .AF p =>
    partial_evalATLK evalStrat mas (.Not (.EG (.Not p))) (some states)
      pre_filtering
  | .EW p q =>
    partial_evalATLK evalStrat mas (.Or (.EU p q) (.EG p)) (some states)
      pre_filtering
  | .AW p q =>
    partial_evalATLK evalStrat mas
      (.Not (.EU (.Not q) (.And (.Not p) (.Not q)))) (some states)
      pre_filtering
  | .nK a p => do
    let x ← partial_evalATLK evalStrat mas p
      (some (mas.equivalent_states states {a} ∩ mas.reachable_states))
      pre_filtering
    .ok (mas.nk a x ∩ states)
  | .K a p =>
    partial_evalATLK evalStrat mas (.Not (.nK a (.Not p))) (some states)
      pre_filtering
  | .nE g p => do
    let x ← partial_evalATLK evalStrat mas p (some (Eequiv mas g states))
      pre_filtering
    .ok (mas.ne g x ∩ states)
  | .E g p =>
    partial_evalATLK evalStrat mas (.Not (.nE g (.Not p))) (some states)
      pre_filtering
  | .nD g p => do
    let x ← partial_evalATLK evalStrat mas p (some (Dequiv mas g states))
      pre_filtering
    .ok (mas.nd g x ∩ states)
  | .D g p =>
    partial_evalATLK evalStrat mas (.Not (.nD g (.Not p))) (some states)
      pre_filtering
  | .nC g p => do
    let equiv ← Cequiv mas g states
    let x ← partial_evalATLK evalStrat mas p (some equiv) pre_filtering
    .ok (mas.nd g x ∩ states)
  | .C g p =>
    partial_evalATLK evalStrat mas (.Not (.nC g (.Not p))) (some states)
      pre_filtering
  | .CAX g p => do
    let x ← partial_evalATLK evalStrat mas (.CEX g (.Not p)) (some states)
      pre_filtering
    .ok xᶜ
  | .CAG g p => do
    let x ← partial_evalATLK evalStrat mas (.CEF g (.Not p)) (some states)
      pre_filtering
    .ok xᶜ
  | .CAU g p q => do
    let x ← partial_evalATLK evalStrat mas
      (.CEW g (.Not q) (.And (.Not p) (.Not q))) (some states) pre_filtering
    .ok xᶜ
  | .CAF g p => do
    let x ← partial_evalATLK evalStrat mas (.CEG g (.Not p)) (some states)
      pre_filtering
    .ok xᶜ
  | .CAW g p q => do
    let x ← partial_evalATLK evalStrat mas
      (.CEU g (.Not q) (.And (.Not p) (.Not q))) (some states) pre_filtering
    .ok xᶜ
  | .CEG g p =>
    partial_evalATLK evalStrat mas (.CEW g p .FalseExp) (some states)
      pre_filtering
  | .CEF g p =>
    partial_evalATLK evalStrat mas (.CEU g .TrueExp p) (some states)
      pre_filtering
  | .CEX g p => evalStrat mas (.CEX g p) states pre_filtering
  | .CEU g p q => evalStrat mas (.CEU g p q) states pre_filtering
  | .CEW g p q => evalStrat mas (.CEW g p q) states pre_filtering
termination_by wt formula
decreasing_by all_goals (simp [wt]; try omega)

/-! ## The early dispatcher (src/pynusmv_tools/atlk_irf/early.py)

early.py:23-323 (`evalATLK`): textually identical to the partial
dispatcher (only `eval_strat` differs, here the parameter `evalStrat`).
The `AX` branch (early.py:106-112) references the unbound name `spec` and
raises `NameError`; the `nC` branch (early.py:239-246) calls `Cequiv`,
which always raises. -/
def early_evalATLK
    (evalStrat : MAS σ Agent Action → Formula σ Agent →
      BDD σ Agent Action → Bool →
      Except (PyError σ Agent) (BDD σ Agent Action))
    (mas : MAS σ Agent Action) (formula : Formula σ Agent)
    (statesOpt : Option (BDD σ Agent Action)) (pre_filtering : Bool) :
    Except (PyError σ Agent) (BDD σ Agent Action) :=
  let states := statesOpt.getD mas.initStates
  match formula with
  | .TrueExp => .ok states
  | .FalseExp => .ok ∅
  | .Init => .ok (mas.initStates ∩ states)
  | .Reachable => .ok (mas.reachable_states ∩ states)
  | .Atom v => .ok (eval_simple_expression mas v ∩ states)
  | .Not p => do
    let x ← early_evalATLK evalStrat mas p (some states) pre_filtering
    .ok (states \ x)
  | .And p q => do
    let l ← early_evalATLK evalStrat mas p (some states) pre_filtering
    let r ← early_evalATLK evalStrat mas q (some states) pre_filtering
    .ok (l ∩ r)
  | .Or p q => do
    let l ← early_evalATLK evalStrat mas p (some states) pre_filtering
    let r ← early_evalATLK evalStrat mas q (some states) pre_filtering
    .ok (l ∪ r)
  | .Implies p q =>
    early_evalATLK evalStrat mas (.Or (.Not p) q) (some states)
      pre_filtering
  | .Iff p q =>
    early_evalATLK evalStrat mas
      (.Or (.And p q) (.And (.Not p) (.Not q))) (some states) pre_filtering
  | .EX p => do
    let x ← early_evalATLK evalStrat mas p (some (mas.post states))
      pre_filtering
    .ok (mas.ex x ∩ states)
  | .AX _ => .error (.nameError "spec")
  | .EG p => do
    let x ← early_evalATLK evalStrat mas p (some (reach mas states))
      pre_filtering
    .ok (mas.eg x ∩ states)
  | .AG p =>
    early_evalATLK evalStrat mas (.Not (.EF (.Not p))) (some states)
      pre_filtering
  | .EU p q => do
    let l ← early_evalATLK evalStrat mas p (some (reach mas states))
      pre_filtering
    let r ← early_evalATLK evalStrat mas q (some (reach mas states))
      pre_filtering
    .ok (mas.eu l r)
  | .AU p q =>
    early_evalATLK evalStrat mas
      (.Not (.Or (.EU (.Not q) (.And (.Not p) (.Not q))) (.EG (.Not q))))
      (some states) pre_filtering
  | .EF p =>
    early_evalATLK evalStrat mas (.EU .TrueExp p) (some states)
      pre_filtering
  | .AF p =>
    early_evalATLK evalStrat mas (.Not (.EG (.Not p))) (some states)
      pre_filtering
  | .EW p q =>
    early_evalATLK evalStrat mas (.Or (.EU p q) (.EG p)) (some states)
      pre_filtering
  | .AW p q =>
    early_evalATLK evalStrat mas
      (.Not (.EU (.Not q) (.And (.Not p) (.Not q)))) (some states)
      pre_filtering
  | .nK a p => do
    let x ← early_evalATLK evalStrat mas p
      (some (mas.equivalent_states states {a} ∩ mas.reachable_states))
      pre_filtering
    .ok (mas.nk a x ∩ states)
  | .K a p =>
    early_evalATLK evalStrat mas (.Not (.nK a (.Not p))) (some states)
      pre_filtering
  | .nE g p => do
    let x ← early_evalATLK evalStrat mas p (some (Eequiv mas g states))
      pre_filtering
    .ok (mas.ne g x ∩ states)
  | .E g p =>
    early_evalATLK evalStrat mas (.Not (.nE g (.Not p))) (some states)
      pre_filtering
  | .nD g p => do
    let x ← early_evalATLK evalStrat mas p (some (Dequiv mas g states))
      pre_filtering
    .ok (mas.nd g x ∩ states)
  | .D g p =>
    early_evalATLK evalStrat mas (.Not (.nD g (.Not p))) (some states)
      pre_filtering
  | .nC g p => do
    let equiv ← Cequiv mas g states
    let x ← early_evalATLK evalStrat mas p (some equiv) pre_filtering
    .ok (mas.nd g x ∩ states)
  | .C g p =>
    early_evalATLK evalStrat mas (.Not (.nC g (.Not p))) (some states)
      pre_filtering
  | .CAX g p => do
    let x ← early_evalATLK evalStrat mas (.CEX g (.Not p)) (some states)
      pre_filtering
    .ok xᶜ
  | .CAG g p => do
    let x ← early_evalATLK evalStrat mas (.CEF g (.Not p)) (some states)
      pre_filtering
    .ok xᶜ
  | .CAU g p q => do
    let x ← early_evalATLK evalStrat mas
      (.CEW g (.Not q) (.And (.Not p) (.Not q))) (some states) pre_filtering
    .ok xᶜ
  | .CAF g p => do
    let x ← early_evalATLK evalStrat mas (.CEG g (.Not p)) (some states)
      pre_filtering
    .ok xᶜ
  | .CAW g p q => do
    let x ← early_evalATLK evalStrat mas
      (.CEU g (.Not q) (.And (.Not p) (.Not q))) (some states) pre_filtering
    .ok xᶜ
  | .CEG g p =>
    early_evalATLK evalStrat mas (.CEW g p .FalseExp) (some states)
      pre_filtering
  | .CEF g p =>
    early_evalATLK evalStrat mas (.CEU g .TrueExp p) (some states)
      pre_filtering
  | .CEX g p => evalStrat mas (.CEX g p) states pre_filtering
  | .CEU g p q => evalStrat mas (.CEU g p q) states pre_filtering
  | .CEW g p q => evalStrat mas (.CEW g p q) states pre_filtering
termination_by wt formula
decreasing_by all_goals (simp [wt]; try omega)

/-! ## The backward dispatcher (src/pynusmv_tools/atlk_irf/backward.py)

backward.py:24-315 (`evalATLK`): like the partial dispatcher, except
that `CAU`, `CAF`, `CEW` and `CEG` raise `NotImplementedError` naming the
formula (backward.py:279-307), and `eval_strat` (the parameter
`evalStrat`) takes no pre_filtering argument (backward.py:309-312).  The
`AX` branch (backward.py:113-119) references the unbound name `spec` and
raises `NameError`; the `nC` branch (backward.py:246-253) calls `Cequiv`,
which always raises. -/
def backward_evalATLK
    (evalStrat : MAS σ Agent Action → Formula σ Agent →
      BDD σ Agent Action →
      Except (PyError σ Agent) (BDD σ Agent Action))
    (mas : MAS σ Agent Action) (formula : Formula σ Agent)
    (statesOpt : Option (BDD σ Agent Action)) (pre_filtering : Bool) :
    Except (PyError σ Agent) (BDD σ Agent Action) :=
  let states := statesOpt.getD mas.initStates
  match formula with
  | .TrueExp => .ok states
  | .FalseExp => .ok ∅
  | .Init => .ok (mas.initStates ∩ states)
  | .Reachable => .ok (mas.reachable_states ∩ states)
  | .Atom v => .ok (eval_simple_expression mas v ∩ states)
  | .Not p => do
    let x ← backward_evalATLK evalStrat mas p (some states) pre_filtering
    .ok (states \ x)
  | .And p q => do
    let l ← backward_evalATLK evalStrat mas p (some states) pre_filtering
    let r ← backward_evalATLK evalStrat mas q (some states) pre_filtering
    .ok (l ∩ r)
  | .Or p q => do
    let l ← backward_evalATLK evalStrat mas p (some states) pre_filtering
    let r ← backward_evalATLK evalStrat mas q (some states) pre_filtering
    .ok (l ∪ r)
  | .Implies p q =>
    backward_evalATLK evalStrat mas (.Or (.Not p) q) (some states)
      pre_filtering
  | .Iff p q =>
    backward_evalATLK evalStrat mas
      (.Or (.And p q) (.And (.Not p) (.Not q))) (some states) pre_filtering
  | .EX p => do
    let x ← backward_evalATLK evalStrat mas p (some (mas.post states))
      pre_filtering
    .ok (mas.ex x ∩ states)
  | .AX _ => .error (.nameError "spec")
  | .EG p => do
    let x ← backward_evalATLK evalStrat mas p (some (reach mas states))
      pre_filtering
    .ok (mas.eg x ∩ states)
  | .AG p =>
    backward_evalATLK evalStrat mas (.Not (.EF (.Not p))) (some states)
      pre_filtering
  | .EU p q => do
    let l ← backward_evalATLK evalStrat mas p (some (reach mas states))
      pre_filtering
    let r ← backward_evalATLK evalStrat mas q (some (reach mas states))
      pre_filtering
    .ok (mas.eu l r)
  | .AU p q =>
    backward_evalATLK evalStrat mas
      (.Not (.Or (.EU (.Not q) (.And (.Not p) (.Not q))) (.EG (.Not q))))
      (some states) pre_filtering
  | .EF p =>
    backward_evalATLK evalStrat mas (.EU .TrueExp p) (some states)
      pre_filtering
  | .AF p =>
    backward_evalATLK evalStrat mas (.Not (.EG (.Not p))) (some states)
      pre_filtering
  | .EW p q =>
    backward_evalATLK evalStrat mas (.Or (.EU p q) (.EG p)) (some states)
      pre_filtering
  | .AW p q =>
    backward_evalATLK evalStrat mas
      (.Not (.EU (.Not q) (.And (.Not p) (.Not q)))) (some states)
      pre_filtering
  | .nK a p => do
    let x ← backward_evalATLK evalStrat mas p
      (some (mas.equivalent_states states {a} ∩ mas.reachable_states))
      pre_filtering
    .ok (mas.nk a x ∩ states)
  | .K a p =>
    backward_evalATLK evalStrat mas (.Not (.nK a (.Not p))) (some states)
      pre_filtering
  | .nE g p => do
    let x ← backward_evalATLK evalStrat mas p (some (Eequiv mas g states))
      pre_filtering
    .ok (mas.ne g x ∩ states)
  | .E g p =>
    backward_evalATLK evalStrat mas (.Not (.nE g (.Not p))) (some states)
      pre_filtering
  | .nD g p => do
    let x ← backward_evalATLK evalStrat mas p (some (Dequiv mas g states))
      pre_filtering
    .ok (mas.nd g x ∩ states)
  | .D g p =>
    backward_evalATLK evalStrat mas (.Not (.nD g (.Not p))) (some states)
      pre_filtering
  | .nC g p => do
    let equiv ← Cequiv mas g states
    let x ← backward_evalATLK evalStrat mas p (some equiv) pre_filtering
    .ok (mas.nd g x ∩ states)
  | .C g p =>
    backward_evalATLK evalStrat mas (.Not (.nC g (.Not p))) (some states)
      pre_filtering
  | .CAX g p => do
    let x ← backward_evalATLK evalStrat mas (.CEX g (.Not p)) (some states)
      pre_filtering
    .ok xᶜ
  | .CAG g p => do
    let x ← backward_evalATLK evalStrat mas (.CEF g (.Not p)) (some states)
      pre_filtering
    .ok xᶜ
  | .CAU g p q => .error (.notImplemented (.CAU g p q))
  | .CAF g p => .error (.notImplemented (.CAF g p))
  | .CAW g p q => do
    let x ← backward_evalATLK evalStrat mas
      (.CEU g (.Not q) (.And (.Not p) (.Not q))) (some states) pre_filtering
    .ok xᶜ
  | .CEG g p => .error (.notImplemented (.CEG g p))
  | .CEF g p =>
    backward_evalATLK evalStrat mas (.CEU g .TrueExp p) (some states)
      pre_filtering
  | .CEW g p q => .error (.notImplemented (.CEW g p q))
  | .CEX g p => evalStrat mas (.CEX g p) states
  | .CEU g p q => evalStrat mas (.CEU g p q) states
termination_by wt formula
decreasing_by all_goals (simp [wt]; try omega)

/-! ## The naive dispatcher (src/pynusmv_tools/atlk_irf/naive.py)

naive.py:22-210 (`evalATLK`): no states parameter; derived operators are
computed directly through the abstract CTL/epistemic collaborators; the
strategic terminal cases (naive.py:206-207) delegate to `eval_strat`,
taken here as the parameter `evalStrat`. -/
def naive_evalATLK
    (evalStrat : MAS σ Agent Action → Formula σ Agent → Bool →
      Except (PyError σ Agent) (BDD σ Agent Action))
    (mas : MAS σ Agent Action) (formula : Formula σ Agent)
    (pre_filtering : Bool) :
    Except (PyError σ Agent) (BDD σ Agent Action) :=
  match formula with
  | .TrueExp => .ok Finset.univ
  | .FalseExp => .ok ∅
  | .Init => .ok mas.initStates
  | .Reachable => .ok mas.reachable_states
  | .Atom v => .ok (eval_simple_expression mas v)
  | .Not p => do
    let x ← naive_evalATLK evalStrat mas p pre_filtering
    .ok xᶜ
  | .And p q => do
    let l ← naive_evalATLK evalStrat mas p pre_filtering
    let r ← naive_evalATLK evalStrat mas q pre_filtering
    .ok (l ∩ r)
  | .Or p q => do
    let l ← naive_evalATLK evalStrat mas p pre_filtering
    let r ← naive_evalATLK evalStrat mas q pre_filtering
    .ok (l ∪ r)
  | .Implies p q => do
    let l ← naive_evalATLK evalStrat mas p pre_filtering
    let r ← naive_evalATLK evalStrat mas q pre_filtering
    .ok (lᶜ ∪ r)
  | .Iff p q => do
    let l ← naive_evalATLK evalStrat mas p pre_filtering
    let r ← naive_evalATLK evalStrat mas q pre_filtering
    .ok ((l ∩ r) ∪ (lᶜ ∩ rᶜ))
  | .EX p => do
    let x ← naive_evalATLK evalStrat mas p pre_filtering
    .ok (mas.ex x)
  | .AX p => do
    let x ← naive_evalATLK evalStrat mas p pre_filtering
    .ok (mas.ex xᶜ)ᶜ
  | .EG p => do
    let x ← naive_evalATLK evalStrat mas p pre_filtering
    .ok (mas.eg x)
  | .AG p => do
    let x ← naive_evalATLK evalStrat mas p pre_filtering
    .ok (mas.eu Finset.univ xᶜ)ᶜ
  | .EU p q => do
    let l ← naive_evalATLK evalStrat mas p pre_filtering
    let r ← naive_evalATLK evalStrat mas q pre_filtering
    .ok (mas.eu l r)
  | .AU p q => do
    let l ← naive_evalATLK evalStrat mas p pre_filtering
    let r ← naive_evalATLK evalStrat mas q pre_filtering
    .ok (mas.eu rᶜ (rᶜ ∩ lᶜ) ∪ mas.eg rᶜ)ᶜ
  | .EF p => do
    let x ← naive_evalATLK evalStrat mas p pre_filtering
    .ok (mas.eu Finset.univ x)
  | .AF p => do
    let x ← naive_evalATLK evalStrat mas p pre_filtering
    .ok (mas.eg xᶜ)ᶜ
  | .EW p q => do
    let l ← naive_evalATLK evalStrat mas p pre_filtering
    let r ← naive_evalATLK evalStrat mas q pre_filtering
    .ok (mas.eu l r ∪ mas.eg l)
  | .AW p q => do
    let l ← naive_evalATLK evalStrat mas p pre_filtering
    let r ← naive_evalATLK evalStrat mas q pre_filtering
    .ok (mas.eu rᶜ (lᶜ ∩ rᶜ))ᶜ
  | .nK a p => do
    let x ← naive_evalATLK evalStrat mas p pre_filtering
    .ok (mas.nk a x)
  | .K a p => do
    let x ← naive_evalATLK evalStrat mas p pre_filtering
    .ok (mas.nk a xᶜ)ᶜ
  | .nE g p => do
    let x ← naive_evalATLK evalStrat mas p pre_filtering
    .ok (mas.ne g x)
  | .E g p => do
    let x ← naive_evalATLK evalStrat mas p pre_filtering
    .ok (mas.ne g xᶜ)ᶜ
  | .nD g p => do
    let x ← naive_evalATLK evalStrat mas p pre_filtering
    .ok (mas.nd g x)
  | .D g p => do
    let x ← naive_evalATLK evalStrat mas p pre_filtering
    .ok (mas.nd g xᶜ)ᶜ
  | .nC g p => do
    let x ← naive_evalATLK evalStrat mas p pre_filtering
    .ok (mas.nc g x)
  | .C g p => do
    let x ← naive_evalATLK evalStrat mas p pre_filtering
    .ok (mas.nc g xᶜ)ᶜ
  | .CAX g p => do
    let x ← naive_evalATLK evalStrat mas (.CEX g (.Not p)) pre_filtering
    .ok xᶜ
  | .CAG g p => do
    let x ← naive_evalATLK evalStrat mas (.CEF g (.Not p)) pre_filtering
    .ok xᶜ
  | .CAU g p q => do
    let x ← naive_evalATLK evalStrat mas
      (.CEW g (.Not q) (.And (.Not p) (.Not q))) pre_filtering
    .ok xᶜ
  | .CAF g p => do
    let x ← naive_evalATLK evalStrat mas (.CEG g (.Not p)) pre_filtering
    .ok xᶜ
  | .CAW g p q => do
    let x ← naive_evalATLK evalStrat mas
      (.CEU g (.Not q) (.And (.Not p) (.Not q))) pre_filtering
    .ok xᶜ
  | .CEG g p =>
    naive_evalATLK evalStrat mas (.CEW g p .FalseExp) pre_filtering
  | .CEF g p =>
    naive_evalATLK evalStrat mas (.CEU g .TrueExp p) pre_filtering
  | .CEX g p => evalStrat mas (.CEX g p) pre_filtering
  | .CEU g p q => evalStrat mas (.CEU g p q) pre_filtering
  | .CEW g p q => evalStrat mas (.CEW g p q) pre_filtering
termination_by wt formula
decreasing_by all_goals (simp [wt]; try omega)

/-! ## The symbolic dispatcher (src/pynusmv_tools/atlk_irf/symbolic.py) -/

/-- Modelled from the spec: `BddTrans.pre` on the system's transition
relation — states having some successor in the state projection of the
argument. -/
def MAS.runPre (mas : MAS σ Agent Action) (X : BDD σ Agent Action) :
    BDD σ Agent Action :=
  forsome inputsCube (mas.weak_pre X)

/-- symbolic.py:726-739 (`_fair`): states from which a fair path starts.
-/
def symbolic_fair (mas : MAS σ Agent Action) : BDD σ Agent Action :=
  if mas.fairness = [] then Finset.univ
  else
    fixpoint (fun Z =>
      mas.fairness.foldl (fun res fc =>
        res ∩ mas.runPre (fixpoint (fun Y =>
          (Z ∩ forsome inputsCube fc) ∪ mas.runPre Y) ∅))
        Finset.univ) Finset.univ

/-- symbolic.py:742-744 (symbolic `ex`). -/
def symbolic_ex (mas : MAS σ Agent Action) (states : BDD σ Agent Action) :
    BDD σ Agent Action :=
  mas.runPre (states ∩ symbolic_fair mas)

/-- symbolic.py:746-750 (symbolic `eu`). -/
def symbolic_eu (mas : MAS σ Agent Action)
    (states_1 states_2 : BDD σ Agent Action) : BDD σ Agent Action :=
  fixpoint (fun Y =>
    (states_2 ∩ symbolic_fair mas) ∪ (states_1 ∩ mas.runPre Y)) ∅

/-- symbolic.py:753-769 (symbolic `ew`). -/
def symbolic_ew (mas : MAS σ Agent Action)
    (states_1 states_2 : BDD σ Agent Action) : BDD σ Agent Action :=
  if mas.fairness = [] then
    fixpoint (fun Z => states_2 ∪ (states_1 ∩ mas.runPre Z)) Finset.univ
  else
    fixpoint (fun Z =>
      ((mas.fairness.foldl (fun res fc =>
          res ∩ mas.runPre (fixpoint (fun Y =>
            (states_2 ∩ symbolic_fair mas) ∪ (Z ∩ forsome inputsCube fc) ∪
              (states_1 ∩ mas.runPre Y)) ∅))
          Finset.univ) ∩ states_1) ∪
        (states_2 ∩ symbolic_fair mas)) Finset.univ

/-- symbolic.py:27-211 (`evalATLK`): like the naive dispatcher but with
its own local CTL operators and with `EG`, `AG`, `AU`, `EF`, `AF`
rewritten into `EW`/`EU` forms; the strategic terminal cases
(symbolic.py:207-208) delegate to `eval_strat`, taken here as the
parameter `evalStrat`. -/
def symbolic_evalATLK
    (evalStrat : MAS σ Agent Action → Formula σ Agent → Bool →
      Except (PyError σ Agent) (BDD σ Agent Action))
    (mas : MAS σ Agent Action) (formula : Formula σ Agent)
    (pre_filtering : Bool) :
    Except (PyError σ Agent) (BDD σ Agent Action) :=
  match formula with
  | .TrueExp => .ok Finset.univ
  | .FalseExp => .ok ∅
  | .Init => .ok mas.initStates
  | .Reachable => .ok mas.reachable_states
  | .Atom v => .ok (eval_simple_expression mas v)
  | .Not p => do
    let x ← symbolic_evalATLK evalStrat mas p pre_filtering
    .ok xᶜ
  | .And p q => do
    let l ← symbolic_evalATLK evalStrat mas p pre_filtering
    let r ← symbolic_evalATLK evalStrat mas q pre_filtering
    .ok (l ∩ r)
  | .Or p q => do
    let l ← symbolic_evalATLK evalStrat mas p pre_filtering
    let r ← symbolic_evalATLK evalStrat mas q pre_filtering
    .ok (l ∪ r)
  | .Implies p q => do
    let l ← symbolic_evalATLK evalStrat mas p pre_filtering
    let r ← symbolic_evalATLK evalStrat mas q pre_filtering
    .ok (lᶜ ∪ r)
  | .Iff p q => do
    let l ← symbolic_evalATLK evalStrat mas p pre_filtering
    let r ← symbolic_evalATLK evalStrat mas q pre_filtering
    .ok ((l ∩ r) ∪ (lᶜ ∩ rᶜ))
  | .EX p => do
    let x ← symbolic_evalATLK evalStrat mas p pre_filtering
    .ok (symbolic_ex mas x)
  | .AX p => do
    let x ← symbolic_evalATLK evalStrat mas p pre_filtering
    .ok (symbolic_ex mas xᶜ)ᶜ
  | .EG p =>
    symbolic_evalATLK evalStrat mas (.EW p .FalseExp) pre_filtering
  | .AG p => do
    let x ← symbolic_evalATLK evalStrat mas (.EF (.Not p)) pre_filtering
    .ok xᶜ
  | .EU p q => do
    let l ← symbolic_evalATLK evalStrat mas p pre_filtering
    let r ← symbolic_evalATLK evalStrat mas q pre_filtering
    .ok (symbolic_eu mas l r)
  | .AU p q => do
    let x ← symbolic_evalATLK evalStrat mas
      (.EW (.Not q) (.And (.Not p) (.Not q))) pre_filtering
    .ok xᶜ
  | .EF p =>
    symbolic_evalATLK evalStrat mas (.EU .TrueExp p) pre_filtering
  | .AF p => do
    let x ← symbolic_evalATLK evalStrat mas (.EG (.Not p)) pre_filtering
    .ok xᶜ
  | .EW p q => do
    let l ← symbolic_evalATLK evalStrat mas p pre_filtering
    let r ← symbolic_evalATLK evalStrat mas q pre_filtering
    .ok (symbolic_ew mas l r)
  | .AW p q => do
    let l ← symbolic_evalATLK evalStrat mas p pre_filtering
    let r ← symbolic_evalATLK evalStrat mas q pre_filtering
    .ok (symbolic_eu mas rᶜ (lᶜ ∩ rᶜ))ᶜ
  | .nK a p => do
    let x ← symbolic_evalATLK evalStrat mas p pre_filtering
    .ok (mas.nk a x)
  | .K a p => do
    let x ← symbolic_evalATLK evalStrat mas p pre_filtering
    .ok (mas.nk a xᶜ)ᶜ
  | .nE g p => do
    let x ← symbolic_evalATLK evalStrat mas p pre_filtering
    .ok (mas.ne g x)
  | .E g p => do
    let x ← symbolic_evalATLK evalStrat mas p pre_filtering
    .ok (mas.ne g xᶜ)ᶜ
  | .nD g p => do
    let x ← symbolic_evalATLK evalStrat mas p pre_filtering
    .ok (mas.nd g x)
  | .D g p => do
    let x ← symbolic_evalATLK evalStrat mas p pre_filtering
    .ok (mas.nd g xᶜ)ᶜ
  | .nC g p => do
    let x ← symbolic_evalATLK evalStrat mas p pre_filtering
    .ok (mas.nc g x)
  | .C g p => do
    let x ← symbolic_evalATLK evalStrat mas p pre_filtering
    .ok (mas.nc g xᶜ)ᶜ
  | .CAX g p => do
    let x ← symbolic_evalATLK evalStrat mas (.CEX g (.Not p)) pre_filtering
    .ok xᶜ
  | .CAG g p => do
    let x ← symbolic_evalATLK evalStrat mas (.CEF g (.Not p)) pre_filtering
    .ok xᶜ
  | .CAU g p q => do
    let x ← symbolic_evalATLK evalStrat mas
      (.CEW g (.Not q) (.And (.Not p) (.Not q))) pre_filtering
    .ok xᶜ
  | .CAF g p => do
    let x ← symbolic_evalATLK evalStrat mas (.CEG g (.Not p)) pre_filtering
    .ok xᶜ
  | .CAW g p q => do
    let x ← symbolic_evalATLK evalStrat mas
      (.CEU g (.Not q) (.And (.Not p) (.Not q))) pre_filtering
    .ok xᶜ
  | .CEG g p =>
    symbolic_evalATLK evalStrat mas (.CEW g p .FalseExp) pre_filtering
  | .CEF g p =>
    symbolic_evalATLK evalStrat mas (.CEU g .TrueExp p) pre_filtering
  | .CEX g p => evalStrat mas (.CEX g p) pre_filtering
  | .CEU g p q => evalStrat mas (.CEU g p q) pre_filtering
  | .CEW g p q => evalStrat mas (.CEW g p q) pre_filtering
termination_by wtS formula
decreasing_by all_goals (simp [wtS]; try omega)

/-! ## The entry point (src/pynusmv_tools/atlk_irf/__init__.py) -/

/-- From the package init module, lines 7-11 (`__implementations`): the
five evalATLK variants selectable by name, each parameterised by its
strategic-case evaluator. -/
def implementationsList
    (esN : MAS σ Agent Action → Formula σ Agent → Bool →
      Except (PyError σ Agent) (BDD σ Agent Action))
    (esP : MAS σ Agent Action → Formula σ Agent → BDD σ Agent Action →
      Bool → Except (PyError σ Agent) (BDD σ Agent Action))
    (esE : MAS σ Agent Action → Formula σ Agent → BDD σ Agent Action →
      Bool → Except (PyError σ Agent) (BDD σ Agent Action))
    (esS : MAS σ Agent Action → Formula σ Agent → Bool →
      Except (PyError σ Agent) (BDD σ Agent Action))
    (esB : MAS σ Agent Action → Formula σ Agent → BDD σ Agent Action →
      Except (PyError σ Agent) (BDD σ Agent Action)) :
    List (String × (MAS σ Agent Action → Formula σ Agent → Bool →
      Except (PyError σ Agent) (BDD σ Agent Action))) :=
  [("naive", fun mas f pf => naive_evalATLK esN mas f pf),
   ("partial", fun mas f pf => partial_evalATLK esP mas f none pf),
   ("early", fun mas f pf => early_evalATLK esE mas f none pf),
   ("symbolic", fun mas f pf => symbolic_evalATLK esS mas f pf),
   ("backward", fun mas f pf => backward_evalATLK esB mas f none pf)]

/-- From the package init module, lines 13-32 (`check`): evaluate the
formula with the selected implementation (the states argument defaulting
to the initial states) and report whether
`(~sat & statesInputsMask & init)` is empty; an unknown implementation
name raises an exception. -/
def check
    (esN : MAS σ Agent Action → Formula σ Agent → Bool →
      Except (PyError σ Agent) (BDD σ Agent Action))
    (esP : MAS σ Agent Action → Formula σ Agent → BDD σ Agent Action →
      Bool → Except (PyError σ Agent) (BDD σ Agent Action))
    (esE : MAS σ Agent Action → Formula σ Agent → BDD σ Agent Action →
      Bool → Except (PyError σ Agent) (BDD σ Agent Action))
    (esS : MAS σ Agent Action → Formula σ Agent → Bool →
      Except (PyError σ Agent) (BDD σ Agent Action))
    (esB : MAS σ Agent Action → Formula σ Agent → BDD σ Agent Action →
      Except (PyError σ Agent) (BDD σ Agent Action))
    (mas : MAS σ Agent Action) (formula : Formula σ Agent)
    (implementation : String) (pre_filtering : Bool) :
    Except (PyError σ Agent) Bool :=
  match (implementationsList esN esP esE esS esB).lookup implementation with
  | some evalFn => do
    let sat ← evalFn mas formula pre_filtering
    .ok (decide ((satᶜ ∩ statesInputsMask ∩ mas.initStates) = ∅))
  | none =>
    .error (.exception ("check: unknown implementation: " ++ implementation))

/-- Whether a formula avoids the four kinds unsupported by the backward
dispatcher (`CAU`, `CAF`, `CEW`, `CEG`) in all of its subformulas. -/
def backward_supported : Formula σ Agent → Bool
  | .TrueExp => true
  | .FalseExp => true
  | .Init => true
  | .Reachable => true
  | .Atom _ => true
  | .Not p => backward_supported p
  | .And p q => backward_supported p && backward_supported q
  | .Or p q => backward_supported p && backward_supported q
  | .Implies p q => backward_supported p && backward_supported q
  | .Iff p q => backward_supported p && backward_supported q
  | .EX p => backward_supported p
  | .AX p => backward_supported p
  | .EG p => backward_supported p
  | .AG p => backward_supported p
  | .EU p q => backward_supported p && backward_supported q
  | .AU p q => backward_supported p && backward_supported q
  | .EF p => backward_supported p
  | .AF p => backward_supported p
  | .EW p q => backward_supported p && backward_supported q
  | .AW p q => backward_supported p && backward_supported q
  | .nK _ p => backward_supported p
  | .K _ p => backward_supported p
  | .nE _ p => backward_supported p
  | .E _ p => backward_supported p
  | .nD _ p => backward_supported p
  | .D _ p => backward_supported p
  | .nC _ p => backward_supported p
  | .C _ p => backward_supported p
  | .CEX _ p => backward_supported p
  | .CAX _ p => backward_supported p
  | .CEU _ p q => backward_supported p && backward_supported q
  | .CAU _ _ _ => false
  | .CEW _ _ _ => false
  | .CAW _ p q => backward_supported p && backward_supported q
  | .CEF _ p => backward_supported p
  | .CAF _ _ => false
  | .CEG _ _ => false
  | .CAG _ p => backward_supported p

/-! ## A concrete finite instance

A two-state, one-agent, two-action system used for counterexamples and
witnesses: state 1 is unreachable and indistinguishable from state 0 for
the only agent; every transition leads to state 0. -/

/-- A concrete `pick_one_state_inputs` choice function over the four
possible moves, preferring lower states and actions. -/
def pickFin (X : BDD (Fin 2) (Fin 1) (Fin 2)) : Fin 2 × (Fin 1 → Fin 2) :=
  if (⟨0, fun _ => 0⟩ : Fin 2 × (Fin 1 → Fin 2)) ∈ X then ⟨0, fun _ => 0⟩
  else if (⟨0, fun _ => 1⟩ : Fin 2 × (Fin 1 → Fin 2)) ∈ X then ⟨0, fun _ => 1⟩
  else if (⟨1, fun _ => 0⟩ : Fin 2 × (Fin 1 → Fin 2)) ∈ X then ⟨1, fun _ => 0⟩
  else ⟨1, fun _ => 1⟩

/-- The concrete system.  Its reachable set is exactly the set of states
reachable from the initial state 0 (state 1 has no incoming transition).
The abstract CTL/epistemic collaborators are instantiated with simple
functions; no claim below depends on their values. -/
def cexMAS : MAS (Fin 2) (Fin 1) (Fin 2) where
  step := fun _ _ s' => decide (s' = 0)
  init := {0}
  reachable := {0}
  fairness := []
  protocol := fun _ => Finset.univ
  obs := fun _ _ => 0
  groups := []
  pick := pickFin
  pick_mem := by decide
  ex := fun X => X
  eg := fun X => X
  eu := fun _ Y => Y
  nk := fun _ X => X
  ne := fun _ X => X
  nd := fun _ X => X
  nc := fun _ X => X

/-! ## Theorems: basic properties of the set algebra and fixpoints -/

theorem mem_forsome {c : Cube Agent} {X : BDD σ Agent Action}
    {m : σ × (Agent → Action)} :
    m ∈ forsome c X ↔
      ∃ m' ∈ X, (c.quantState = true ∨ m'.1 = m.1) ∧
        ∀ a, a ∉ c.quantActs → m'.2 a = m.2 a := by
  simp [forsome]

theorem forsome_mono {c : Cube Agent} {X Y : BDD σ Agent Action}
    (h : X ⊆ Y) : forsome c X ⊆ forsome c Y := by
  intro m hm
  rw [mem_forsome] at hm ⊢
  obtain ⟨m', hm', hrest⟩ := hm
  exact ⟨m', h hm', hrest⟩

theorem forsome_empty (c : Cube Agent) :
    forsome c (∅ : BDD σ Agent Action) = ∅ := by
  ext m; simp [mem_forsome]

theorem subset_forsome_inputs (X : BDD σ Agent Action) :
    X ⊆ forsome (inputsCube : Cube Agent) X := by
  intro m hm
  rw [mem_forsome]
  exact ⟨m, hm, Or.inr rfl, fun a ha => rfl⟩

theorem forsome_inputs_idem (X : BDD σ Agent Action) :
    forsome (inputsCube : Cube Agent) (forsome inputsCube X) =
      forsome (inputsCube : Cube Agent) X := by
  ext m
  simp only [mem_forsome, inputsCube]
  constructor
  · rintro ⟨m', ⟨m'', hm'', h1, -⟩, h2, -⟩
    exact ⟨m'', hm'', by
      rcases h1 with h1 | h1
      · exact Or.inl h1
      · rcases h2 with h2 | h2
        · exact Or.inl h2
        · exact Or.inr (h1.trans h2), fun a ha => absurd (Finset.mem_univ a) ha⟩
  · rintro ⟨m', hm', h1, h2⟩
    exact ⟨m', ⟨m', hm', Or.inr rfl, fun a ha => rfl⟩, h1, h2⟩

theorem InputFree.empty : InputFree (∅ : BDD σ Agent Action) :=
  forsome_empty _

theorem InputFree.union {X Y : BDD σ Agent Action}
    (hX : InputFree X) (hY : InputFree Y) : InputFree (X ∪ Y) := by
  unfold InputFree at *
  apply Finset.Subset.antisymm
  · intro m hm
    rw [mem_forsome] at hm
    obtain ⟨m', hm', h1, h2⟩ := hm
    rcases Finset.mem_union.mp hm' with h | h
    · exact Finset.mem_union_left _ (hX ▸ mem_forsome.mpr ⟨m', h, h1, h2⟩)
    · exact Finset.mem_union_right _ (hY ▸ mem_forsome.mpr ⟨m', h, h1, h2⟩)
  · exact subset_forsome_inputs _

theorem InputFree.forsome_inputs (X : BDD σ Agent Action) :
    InputFree (forsome (inputsCube : Cube Agent) X) :=
  forsome_inputs_idem X

section Fixiter

variable {β : Type} [DecidableEq β] [Fintype β]

theorem fixiter_subset_of_prefixed {f : Finset β → Finset β}
    (hf : Monotone f) {y : Finset β} (hy : f y ⊆ y) :
    ∀ (n : Nat) (x : Finset β), x ⊆ y → fixiter f n x ⊆ y := by
  intro n
  induction n with
  | zero => intro x hx; simpa [fixiter] using hx
  | succ n ih =>
    intro x hx
    rw [fixiter]
    split
    · exact hx
    · exact ih (f x) ((hf hx).trans hy)

theorem subset_fixiter_of_postfixed {f : Finset β → Finset β}
    (hf : Monotone f) {y : Finset β} (hy : y ⊆ f y) :
    ∀ (n : Nat) (x : Finset β), y ⊆ x → y ⊆ fixiter f n x := by
  intro n
  induction n with
  | zero => intro x hx; simpa [fixiter] using hx
  | succ n ih =>
    intro x hx
    rw [fixiter]
    split
    · exact hx
    · exact ih (f x) (hy.trans (hf hx))

theorem fixiter_fixed_asc {f : Finset β → Finset β} (hf : Monotone f) :
    ∀ (n : Nat) (x : Finset β), x ⊆ f x →
      Fintype.card β + 1 ≤ n + x.card →
      f (fixiter f n x) = fixiter f n x := by
  intro n
  induction n with
  | zero =>
    intro x _ hn
    have := Finset.card_le_univ x
    simp [Finset.card_univ] at this
    omega
  | succ n ih =>
    intro x hx hn
    rw [fixiter]
    split
    · next h => simpa [h] using h
    · next h =>
      apply ih (f x) (hf hx)
      have hlt : x.card < (f x).card :=
        Finset.card_lt_card (HasSubset.Subset.ssubset_of_ne hx (Ne.symm h))
      omega

theorem fixiter_fixed_desc {f : Finset β → Finset β} (hf : Monotone f) :
    ∀ (n : Nat) (x : Finset β), f x ⊆ x → x.card ≤ n →
      f (fixiter f n x) = fixiter f n x := by
  intro n
  induction n with
  | zero =>
    intro x hx hn
    have hx0 : x = ∅ := Finset.card_eq_zero.mp (Nat.le_zero.mp hn)
    subst hx0
    have : f ∅ = ∅ := Finset.subset_empty.mp hx
    simpa [fixiter] using this
  | succ n ih =>
    intro x hx hn
    rw [fixiter]
    split
    · next h => simpa [h] using h
    · next h =>
      apply ih (f x) (hf hx)
      have hlt : (f x).card < x.card :=
        Finset.card_lt_card (HasSubset.Subset.ssubset_of_ne hx h)
      omega

/-- An invariant preserved by `f` holds of every `fixiter` value. -/
theorem fixiter_invariant {f : β → β} {P : β → Prop}
    (hP : ∀ y, P y → P (f y)) :
    ∀ (n : Nat) (x : β), P x → P (fixiter f n x) := by
  intro n
  induction n with
  | zero => intro x hx; simpa [fixiter] using hx
  | succ n ih =>
    intro x hx
    rw [fixiter]
    split
    · exact hx
    · exact ih (f x) (hP x hx)

end Fixiter

theorem fixpoint_bot_fixed {f : BDD σ Agent Action → BDD σ Agent Action}
    (hf : Monotone f) : f (fixpoint f ∅) = fixpoint f ∅ :=
  fixiter_fixed_asc hf _ _ (Finset.empty_subset _) (by simp)

theorem fixpoint_top_fixed {f : BDD σ Agent Action → BDD σ Agent Action}
    (hf : Monotone f) :
    f (fixpoint f Finset.univ) = fixpoint f Finset.univ :=
  fixiter_fixed_desc hf _ _ (Finset.subset_univ _)
    (by simpa [Finset.card_univ] using Nat.le_succ _)

theorem fixpoint_bot_le {f : BDD σ Agent Action → BDD σ Agent Action}
    (hf : Monotone f) {y : BDD σ Agent Action} (hy : f y ⊆ y) :
    fixpoint f ∅ ⊆ y :=
  fixiter_subset_of_prefixed hf hy _ _ (Finset.empty_subset _)

theorem le_fixpoint_top {f : BDD σ Agent Action → BDD σ Agent Action}
    (hf : Monotone f) {y : BDD σ Agent Action} (hy : y ⊆ f y) :
    y ⊆ fixpoint f Finset.univ :=
  subset_fixiter_of_postfixed hf hy _ _ (Finset.subset_univ _)

theorem fixpoint_bot_mono {f g : BDD σ Agent Action → BDD σ Agent Action}
    (hf : Monotone f) (hg : Monotone g) (hfg : ∀ z, f z ⊆ g z) :
    fixpoint f ∅ ⊆ fixpoint g ∅ := by
  apply fixpoint_bot_le hf
  have h1 : f (fixpoint g ∅) ⊆ g (fixpoint g ∅) := hfg _
  rwa [fixpoint_bot_fixed hg] at h1

theorem fixpoint_top_mono {f g : BDD σ Agent Action → BDD σ Agent Action}
    (hf : Monotone f) (hg : Monotone g) (hfg : ∀ z, f z ⊆ g z) :
    fixpoint f Finset.univ ⊆ fixpoint g Finset.univ := by
  apply le_fixpoint_top hg
  have h1 : f (fixpoint f Finset.univ) ⊆ g (fixpoint f Finset.univ) := hfg _
  rwa [fixpoint_top_fixed hf] at h1

theorem fixpoint_congr {f g : BDD σ Agent Action → BDD σ Agent Action}
    (h : ∀ z, f z = g z) (start : BDD σ Agent Action) :
    fixpoint f start = fixpoint g start := by
  have : f = g := funext h
  rw [this]

theorem fixpoint_const_bot (c : BDD σ Agent Action) :
    fixpoint (fun _ => c) ∅ = c :=
  (fixpoint_bot_fixed monotone_const).symm

theorem fixpoint_const_top (c : BDD σ Agent Action) :
    fixpoint (fun _ => c) Finset.univ = c :=
  (fixpoint_top_fixed monotone_const).symm

theorem weak_pre_mono (mas : MAS σ Agent Action) {X Y : BDD σ Agent Action}
    (h : X ⊆ Y) : mas.weak_pre X ⊆ mas.weak_pre Y := by
  intro m hm
  simp only [MAS.weak_pre, Finset.mem_filter, Finset.mem_univ,
    true_and] at hm ⊢
  obtain ⟨s', hs', m', hm', he⟩ := hm
  exact ⟨s', hs', m', h hm', he⟩

/-! ## Accumulating unions (the `res |= ...` loops over fairness constraints) -/

section FoldUnion

variable {F : Type}

theorem subset_foldl_union (l : List F) (g : F → BDD σ Agent Action)
    (i : BDD σ Agent Action) :
    i ⊆ l.foldl (fun r fc => r ∪ g fc) i := by
  induction l generalizing i with
  | nil => exact Finset.Subset.refl _
  | cons fc l ih =>
    exact Finset.subset_union_left.trans (ih (i ∪ g fc))

theorem foldl_union_subset {l : List F} {g : F → BDD σ Agent Action}
    {i X : BDD σ Agent Action} (hi : i ⊆ X) (hg : ∀ fc ∈ l, g fc ⊆ X) :
    l.foldl (fun r fc => r ∪ g fc) i ⊆ X := by
  induction l generalizing i with
  | nil => exact hi
  | cons fc l ih =>
    exact ih (Finset.union_subset hi (hg fc (List.mem_cons_self _ _)))
      (fun fc' h => hg fc' (List.mem_cons_of_mem _ h))

theorem foldl_union_mono {l : List F} {g g' : F → BDD σ Agent Action}
    {i i' : BDD σ Agent Action} (hi : i ⊆ i')
    (hg : ∀ fc ∈ l, g fc ⊆ g' fc) :
    l.foldl (fun r fc => r ∪ g fc) i ⊆ l.foldl (fun r fc => r ∪ g' fc) i' := by
  induction l generalizing i i' with
  | nil => exact hi
  | cons fc l ih =>
    exact ih (Finset.union_subset_union hi (hg fc (List.mem_cons_self _ _)))
      (fun fc' h => hg fc' (List.mem_cons_of_mem _ h))

theorem foldl_union_empty_terms {l : List F} {g : F → BDD σ Agent Action}
    (hg : ∀ fc ∈ l, g fc = ∅) (i : BDD σ Agent Action) :
    l.foldl (fun r fc => r ∪ g fc) i = i := by
  induction l generalizing i with
  | nil => rfl
  | cons fc l ih =>
    rw [List.foldl_cons, hg fc (List.mem_cons_self _ _), Finset.union_empty]
    exact ih (fun fc' h => hg fc' (List.mem_cons_of_mem _ h)) i

end FoldUnion

/-! ## Monotonicity of the filter operators -/

theorem pre_ce_mono_states (mas : MAS σ Agent Action) (agents : List Agent)
    {S S' M : BDD σ Agent Action} (h : S ⊆ S') :
    pre_ce mas agents S M ⊆ pre_ce mas agents S' M := by
  unfold pre_ce
  apply forsome_mono
  apply Finset.inter_subset_inter _ (Finset.Subset.refl _)
  apply forsome_mono
  apply Finset.inter_subset_inter
  · apply Finset.compl_subset_compl.mpr
    apply forsome_mono
    apply weak_pre_mono
    apply Finset.inter_subset_inter _ (Finset.Subset.refl _)
    exact Finset.compl_subset_compl.mpr
      (Finset.inter_subset_inter (forsome_mono h) (Finset.Subset.refl _))
  · exact weak_pre_mono mas
      (Finset.inter_subset_inter (forsome_mono h) (Finset.Subset.refl _))

theorem stay_functional_mono (mas : MAS σ Agent Action) (agents : List Agent)
    (s1 s2 M : BDD σ Agent Action) :
    Monotone (fun Z => s2 ∪ (s1 ∩ pre_ce mas agents Z M)) := by
  intro X Y h
  exact Finset.union_subset_union (Finset.Subset.refl _)
    (Finset.inter_subset_inter (Finset.Subset.refl _)
      (pre_ce_mono_states mas agents h))

theorem stay_ce_fixed (mas : MAS σ Agent Action) (agents : List Agent)
    (s1 s2 M : BDD σ Agent Action) :
    stay_ce mas agents s1 s2 M =
      (forsome inputsCube s2 ∩ statesMask) ∪
        ((forsome inputsCube s1 ∩ statesMask) ∩
          pre_ce mas agents (stay_ce mas agents s1 s2 M) M) :=
  (fixpoint_top_fixed (stay_functional_mono mas agents _ _ M)).symm

theorem stay_ce_mono (mas : MAS σ Agent Action) (agents : List Agent)
    {s1 s2 s1' s2' : BDD σ Agent Action} (M : BDD σ Agent Action)
    (h1 : s1 ⊆ s1') (h2 : s2 ⊆ s2') :
    stay_ce mas agents s1 s2 M ⊆ stay_ce mas agents s1' s2' M := by
  unfold stay_ce
  apply fixpoint_top_mono (stay_functional_mono mas agents _ _ M)
    (stay_functional_mono mas agents _ _ M)
  intro z
  exact Finset.union_subset_union
    (Finset.inter_subset_inter (forsome_mono h2) (Finset.Subset.refl _))
    (Finset.inter_subset_inter
      (Finset.inter_subset_inter (forsome_mono h1) (Finset.Subset.refl _))
      (Finset.Subset.refl _))

/-! ## C3: the filter operators on the empty move set -/

theorem pre_ce_empty_moves (mas : MAS σ Agent Action) (agents : List Agent)
    (S : BDD σ Agent Action) : pre_ce mas agents S ∅ = ∅ := by
  unfold pre_ce
  rw [forsome_empty, Finset.empty_inter, Finset.inter_empty, forsome_empty]

theorem stay_ce_empty_moves (mas : MAS σ Agent Action) (agents : List Agent)
    (s1 s2 : BDD σ Agent Action) :
    stay_ce mas agents s1 s2 ∅ = forsome inputsCube s2 ∩ statesMask := by
  unfold stay_ce
  rw [fixpoint_congr (g := fun _ => forsome inputsCube s2 ∩ statesMask)
    (fun z => by rw [pre_ce_empty_moves, Finset.inter_empty,
      Finset.union_empty])]
  exact fixpoint_const_top _

theorem nfair_ce_empty_moves (mas : MAS σ Agent Action)
    (agents : List Agent) : nfair_ce mas agents ∅ = ∅ := by
  unfold nfair_ce
  split
  · rfl
  · rw [fixpoint_congr (g := fun _ => ∅) (fun z =>
      foldl_union_empty_terms
        (fun fc _ => by rw [pre_ce_empty_moves]) ∅)]
    exact fixpoint_const_bot _

theorem filter_cex_empty_moves (mas : MAS σ Agent Action)
    (agents : List Agent) (states : BDD σ Agent Action) :
    filter_cex mas agents states ∅ = ∅ := by
  unfold filter_cex
  exact pre_ce_empty_moves mas agents _

theorem filter_ceu_empty_moves (mas : MAS σ Agent Action)
    (agents : List Agent) (s1 s2 : BDD σ Agent Action) :
    filter_ceu mas agents s1 s2 ∅ =
      forsome inputsCube s2 ∩ statesMask := by
  unfold filter_ceu
  split
  · rw [fixpoint_congr (g := fun _ => forsome inputsCube s2 ∩ statesMask)
      (fun z => by rw [pre_ce_empty_moves, Finset.inter_empty,
        Finset.union_empty])]
    exact fixpoint_const_bot _
  · rw [fixpoint_congr (g := fun _ => forsome inputsCube s2 ∩ statesMask)
      (fun z => ?_)]
    · exact fixpoint_const_bot _
    · rw [foldl_union_empty_terms (fun fc _ => by rw [pre_ce_empty_moves])]
      rw [nfair_ce_empty_moves, Finset.union_empty]
      exact Finset.inter_eq_left.mpr Finset.subset_union_right

theorem filter_cew_empty_moves (mas : MAS σ Agent Action)
    (agents : List Agent) (s1 s2 : BDD σ Agent Action) :
    filter_cew mas agents s1 s2 ∅ =
      forsome inputsCube s2 ∩ statesMask := by
  unfold filter_cew
  split
  · rw [fixpoint_congr (g := fun _ => forsome inputsCube s2 ∩ statesMask)
      (fun z => by rw [pre_ce_empty_moves, Finset.inter_empty,
        Finset.union_empty])]
    exact fixpoint_const_top _
  · rw [stay_ce_empty_moves]
    simp [statesMask, forsome_inputs_idem]

/-! ## C7: order properties of filter_ceu and filter_cew -/

theorem inter_statesMask (X : BDD σ Agent Action) : X ∩ statesMask = X := by
  simp [statesMask]

theorem union_inter_pre_mono (mas : MAS σ Agent Action) (agents : List Agent)
    (a b M : BDD σ Agent Action) :
    Monotone (fun Z => b ∪ (a ∩ pre_ce mas agents Z M)) := by
  intro X Y h
  exact Finset.union_subset_union (Finset.Subset.refl _)
    (Finset.inter_subset_inter (Finset.Subset.refl _)
      (pre_ce_mono_states mas agents h))

theorem inputFree_pre_ce (mas : MAS σ Agent Action) (agents : List Agent)
    (S M : BDD σ Agent Action) : InputFree (pre_ce mas agents S M) :=
  forsome_inputs_idem _

theorem inputFree_foldl {F : Type} {l : List F}
    {g : F → BDD σ Agent Action} {i : BDD σ Agent Action}
    (hg : ∀ fc ∈ l, InputFree (g fc)) (hi : InputFree i) :
    InputFree (l.foldl (fun r fc => r ∪ g fc) i) := by
  induction l generalizing i with
  | nil => exact hi
  | cons fc l ih =>
    exact ih (fun fc' h => hg fc' (List.mem_cons_of_mem _ h))
      (hi.union (hg fc (List.mem_cons_self _ _)))

theorem inputFree_nfair_ce (mas : MAS σ Agent Action)
    (agents : List Agent) (M : BDD σ Agent Action) :
    InputFree (nfair_ce mas agents M) := by
  unfold nfair_ce
  split
  · exact InputFree.empty
  · exact fixiter_invariant
      (fun y _ => inputFree_foldl
        (fun fc _ => inputFree_pre_ce mas agents _ M) InputFree.empty)
      _ _ InputFree.empty

/-- When the arguments of `stay_ce` are already input-free, its internal
re-projection is the identity. -/
theorem stay_ce_eq_of_inputFree (mas : MAS σ Agent Action)
    (agents : List Agent) {a b : BDD σ Agent Action}
    (M : BDD σ Agent Action) (ha : InputFree a) (hb : InputFree b) :
    stay_ce mas agents a b M =
      fixpoint (fun Z => b ∪ (a ∩ pre_ce mas agents Z M)) Finset.univ := by
  unfold stay_ce
  apply fixpoint_congr
  intro z
  rw [inter_statesMask, inter_statesMask, ha, hb]

theorem proj_subset_self (s : BDD σ Agent Action) :
    s ⊆ forsome inputsCube s ∩ statesMask :=
  Finset.subset_inter (subset_forsome_inputs s) (Finset.subset_univ s)

theorem proj_mono {s s' : BDD σ Agent Action} (h : s ⊆ s') :
    forsome (inputsCube : Cube Agent) s ∩ statesMask ⊆
      forsome inputsCube s' ∩ statesMask :=
  Finset.inter_subset_inter (forsome_mono h) (Finset.Subset.refl _)

theorem ceu_inner_mono (mas : MAS σ Agent Action) (agents : List Agent)
    (s1 s2 M : BDD σ Agent Action) :
    Monotone (fun Z =>
      (mas.fairness.foldl (fun res fc =>
        res ∪ pre_ce mas agents
          (stay_ce mas agents
            (((forsome inputsCube s1 ∩ statesMask) ∪
                (forsome inputsCube s2 ∩ statesMask) ∪
                nfair_ce mas agents M) ∩
              (Z ∪ ((forsome inputsCube fc)ᶜ ∩ statesMask)))
            ((forsome inputsCube s2 ∩ statesMask) ∩
              (Z ∪ ((forsome inputsCube fc)ᶜ ∩ statesMask)))
            M)
          M) (forsome inputsCube s2 ∩ statesMask)) ∩
      ((forsome inputsCube s1 ∩ statesMask) ∪
        (forsome inputsCube s2 ∩ statesMask) ∪
        nfair_ce mas agents M)) := by
  intro X Y h
  apply Finset.inter_subset_inter _ (Finset.Subset.refl _)
  apply foldl_union_mono (Finset.Subset.refl _)
  intro fc _
  apply pre_ce_mono_states
  apply stay_ce_mono
  · exact Finset.inter_subset_inter (Finset.Subset.refl _)
      (Finset.union_subset_union h (Finset.Subset.refl _))
  · exact Finset.inter_subset_inter (Finset.Subset.refl _)
      (Finset.union_subset_union h (Finset.Subset.refl _))

/-- filter_ceu contains its target set states_2. -/
theorem filter_ceu_supset (mas : MAS σ Agent Action) (agents : List Agent)
    (s1 s2 M : BDD σ Agent Action) :
    s2 ⊆ filter_ceu mas agents s1 s2 M := by
  unfold filter_ceu
  split
  · have hmono := union_inter_pre_mono mas agents
      (forsome inputsCube s1 ∩ statesMask)
      (forsome inputsCube s2 ∩ statesMask) M
    have hfix := fixpoint_bot_fixed hmono
    calc s2 ⊆ forsome inputsCube s2 ∩ statesMask := proj_subset_self s2
    _ ⊆ _ := by
        rw [← hfix]
        exact Finset.subset_union_left
  · have hmono := ceu_inner_mono mas agents s1 s2 M
    have hfix := fixpoint_bot_fixed hmono
    rw [← hfix]
    apply Finset.subset_inter
    · exact (proj_subset_self s2).trans (subset_foldl_union _ _ _)
    · exact (proj_subset_self s2).trans
        (Finset.subset_union_right.trans Finset.subset_union_left)

/-- filter_ceu is monotone in its two state-set arguments. -/
theorem filter_ceu_mono (mas : MAS σ Agent Action) (agents : List Agent)
    {s1 s2 s1' s2' : BDD σ Agent Action} (M : BDD σ Agent Action)
    (h1 : s1 ⊆ s1') (h2 : s2 ⊆ s2') :
    filter_ceu mas agents s1 s2 M ⊆ filter_ceu mas agents s1' s2' M := by
  unfold filter_ceu
  split
  · apply fixpoint_bot_mono (union_inter_pre_mono mas agents _ _ M)
      (union_inter_pre_mono mas agents _ _ M)
    intro z
    exact Finset.union_subset_union (proj_mono h2)
      (Finset.inter_subset_inter (proj_mono h1) (Finset.Subset.refl _))
  · apply fixpoint_bot_mono (ceu_inner_mono mas agents s1 s2 M)
      (ceu_inner_mono mas agents s1' s2' M)
    intro z
    have h12n : (forsome inputsCube s1 ∩ statesMask) ∪
        (forsome inputsCube s2 ∩ statesMask) ∪ nfair_ce mas agents M ⊆
        (forsome (inputsCube : Cube Agent) s1' ∩ statesMask) ∪
          (forsome inputsCube s2' ∩ statesMask) ∪ nfair_ce mas agents M :=
      Finset.union_subset_union
        (Finset.union_subset_union (proj_mono h1) (proj_mono h2))
        (Finset.Subset.refl _)
    apply Finset.inter_subset_inter _ h12n
    apply foldl_union_mono (proj_mono h2)
    intro fc _
    apply pre_ce_mono_states
    apply stay_ce_mono
    · exact Finset.inter_subset_inter h12n (Finset.Subset.refl _)
    · exact Finset.inter_subset_inter (proj_mono h2) (Finset.Subset.refl _)

/-- filter_cew (weak until) contains filter_ceu (strict until). -/
theorem filter_ceu_subset_cew (mas : MAS σ Agent Action)
    (agents : List Agent) (s1 s2 M : BDD σ Agent Action) :
    filter_ceu mas agents s1 s2 M ⊆ filter_cew mas agents s1 s2 M := by
  unfold filter_ceu filter_cew
  split
  · apply fixpoint_bot_le (union_inter_pre_mono mas agents _ _ M)
    exact le_of_eq (fixpoint_top_fixed (union_inter_pre_mono mas agents _ _ M))
  · -- the fairness-constraint case
    set P1 := forsome (inputsCube : Cube Agent) s1 ∩ statesMask with hP1
    set P2 := forsome (inputsCube : Cube Agent) s2 ∩ statesMask with hP2
    have hfree1 : InputFree P1 := by
      rw [hP1, inter_statesMask]; exact forsome_inputs_idem s1
    have hfree2 : InputFree P2 := by
      rw [hP2, inter_statesMask]; exact forsome_inputs_idem s2
    have hfree12n : InputFree (P1 ∪ P2 ∪ nfair_ce mas agents M) :=
      (hfree1.union hfree2).union (inputFree_nfair_ce mas agents M)
    have hpeq : stay_ce mas agents (P1 ∪ P2 ∪ nfair_ce mas agents M) P2 M =
        fixpoint (fun Z => P2 ∪ ((P1 ∪ P2 ∪ nfair_ce mas agents M) ∩
          pre_ce mas agents Z M)) Finset.univ :=
      stay_ce_eq_of_inputFree mas agents M hfree12n hfree2
    set p := stay_ce mas agents (P1 ∪ P2 ∪ nfair_ce mas agents M) P2 M
      with hpdef
    have hpfix : P2 ∪ ((P1 ∪ P2 ∪ nfair_ce mas agents M) ∩
        pre_ce mas agents p M) = p := by
      have h := fixpoint_top_fixed (union_inter_pre_mono mas agents
        (P1 ∪ P2 ∪ nfair_ce mas agents M) P2 M)
      rw [← hpeq] at h
      exact h
    apply fixpoint_bot_le (ceu_inner_mono mas agents s1 s2 M)
    -- the fixpoint p of the weak equation is a prefixed point of the
    -- fairness-refined strict functional
    have hfold : mas.fairness.foldl (fun res fc =>
        res ∪ pre_ce mas agents
          (stay_ce mas agents
            ((P1 ∪ P2 ∪ nfair_ce mas agents M) ∩
              (p ∪ ((forsome inputsCube fc)ᶜ ∩ statesMask)))
            (P2 ∩ (p ∪ ((forsome inputsCube fc)ᶜ ∩ statesMask)))
            M)
          M) P2 ⊆ P2 ∪ pre_ce mas agents p M := by
      apply foldl_union_subset Finset.subset_union_left
      intro fc _
      apply Finset.Subset.trans _ Finset.subset_union_right
      apply pre_ce_mono_states
      exact stay_ce_mono mas agents M Finset.inter_subset_left
        Finset.inter_subset_left
    intro m hm
    rw [Finset.mem_inter] at hm
    obtain ⟨hm1, hm2⟩ := hm
    rw [← hpfix]
    rcases Finset.mem_union.mp (hfold hm1) with h | h
    · exact Finset.mem_union_left _ h
    · exact Finset.mem_union_right _ (Finset.mem_inter.mpr ⟨hm2, h⟩)

/-! ## Claim C3 -/

/-- C3 (counterexample): it is not the case that `filter_ceu` and
`filter_cew` applied with the empty move set always return the empty state
set: on the concrete system with `states_2` the full set, both return the
full set. -/
theorem claim3_counterexample :
    ¬ (filter_ceu cexMAS [(0 : Fin 1)] ∅ Finset.univ ∅ = ∅ ∧
       filter_cew cexMAS [(0 : Fin 1)] ∅ Finset.univ ∅ = ∅) := by
  decide

/-- C3 (amended): with the empty move set, `filter_cex` returns the empty
set, while `filter_ceu` and `filter_cew` return the projection of
`states_2` on the state variables (restricted to the valid-state mask):
the fixpoint equation collapses to its target term, which is empty only if
`states_2` is. -/
theorem claim3_empty_moves (mas : MAS σ Agent Action) (agents : List Agent)
    (s s1 s2 : BDD σ Agent Action) :
    filter_cex mas agents s ∅ = ∅ ∧
    filter_ceu mas agents s1 s2 ∅ = forsome inputsCube s2 ∩ statesMask ∧
    filter_cew mas agents s1 s2 ∅ = forsome inputsCube s2 ∩ statesMask :=
  ⟨filter_cex_empty_moves mas agents s,
   filter_ceu_empty_moves mas agents s1 s2,
   filter_cew_empty_moves mas agents s1 s2⟩

/-! ## Claim C7 -/

/-- C7: `filter_ceu(s1, s2, M)` contains `s2`, is monotone in both of its
state-set arguments, and is contained in `filter_cew` at equal arguments
(weak versus strict until). -/
theorem claim7_filter_monotonicity (mas : MAS σ Agent Action)
    (agents : List Agent) (s1 s2 s1' s2' M : BDD σ Agent Action)
    (h1 : s1 ⊆ s1') (h2 : s2 ⊆ s2') :
    s2 ⊆ filter_ceu mas agents s1 s2 M ∧
    filter_ceu mas agents s1 s2 M ⊆ filter_ceu mas agents s1' s2' M ∧
    filter_ceu mas agents s1 s2 M ⊆ filter_cew mas agents s1 s2 M :=
  ⟨filter_ceu_supset mas agents s1 s2 M,
   filter_ceu_mono mas agents M h1 h2,
   filter_ceu_subset_cew mas agents s1 s2 M⟩

/-! ## Theorems: the Split Engine -/

theorem pick_mem_of_ne (mas : MAS σ Agent Action) {X : BDD σ Agent Action}
    (h : X ≠ ∅) : mas.pick X ∈ X :=
  mas.pick_mem X (Finset.nonempty_iff_ne_empty.mpr h)

theorem subset_get_equiv_class (mas : MAS σ Agent Action)
    (agents : List Agent) (states : BDD σ Agent Action) :
    states ⊆ get_equiv_class mas agents states := by
  unfold get_equiv_class
  exact subset_foldl_union agents _ states

theorem mem_forsome_inputs_singleton {si m : σ × (Agent → Action)} :
    m ∈ forsome (inputsCube : Cube Agent)
      ({si} : BDD σ Agent Action) ↔ m.1 = si.1 := by
  simp only [mem_forsome, inputsCube, Finset.mem_singleton]
  constructor
  · rintro ⟨m', rfl, h1, -⟩
    rcases h1 with h1 | h1
    · exact absurd h1 (by simp)
    · exact h1.symm
  · intro h
    exact ⟨si, rfl, Or.inr h.symm, fun b hb => absurd (Finset.mem_univ b) hb⟩

theorem pick_mem_eqcl (mas : MAS σ Agent Action) (a : Agent)
    {moves : BDD σ Agent Action} (h : moves ≠ ∅) :
    mas.pick moves ∈
      moves ∩ get_equiv_class mas [a]
        (forsome inputsCube {mas.pick moves}) := by
  refine Finset.mem_inter.mpr ⟨pick_mem_of_ne mas h, ?_⟩
  exact subset_get_equiv_class mas [a] _
    (subset_forsome_inputs _ (Finset.mem_singleton_self _))

theorem eqcl_rest_card (mas : MAS σ Agent Action) (a : Agent)
    {moves : BDD σ Agent Action} (h : moves ≠ ∅) :
    (moves \ (moves ∩ get_equiv_class mas [a]
      (forsome inputsCube {mas.pick moves}))).card < moves.card :=
  Finset.card_lt_card
    (Finset.sdiff_ssubset Finset.inter_subset_left
      ⟨mas.pick moves, pick_mem_eqcl mas a h⟩)

theorem split_one_aux_rest_card (mas : MAS σ Agent Action)
    (A : List Agent) (a : Agent) :
    ∀ (fuel : Nat) (common moves : BDD σ Agent Action),
      ∀ t ∈ split_one_aux mas A a fuel common moves,
        t.2.2.card < moves.card ∨ (moves = ∅ ∧ t.2.2 = ∅) := by
  intro fuel
  induction fuel with
  | zero => intro common moves t ht; simp [split_one_aux] at ht
  | succ fuel ih =>
    intro common moves t ht
    rw [split_one_aux] at ht
    by_cases hm : moves = ∅
    · rw [if_pos hm] at ht
      simp only [List.mem_singleton] at ht
      subst ht
      exact Or.inr ⟨hm, rfl⟩
    · rw [if_neg hm] at ht
      split at ht
      · obtain ⟨nc, -, rfl⟩ := List.mem_map.mp ht
        exact Or.inl (eqcl_rest_card mas a hm)
      · rcases ih _ _ t ht with h | ⟨-, h2⟩
        · exact Or.inl (h.trans (eqcl_rest_card mas a hm))
        · refine Or.inl ?_
          rw [h2]
          simpa using Finset.card_pos.mpr
            (Finset.nonempty_iff_ne_empty.mpr hm)

/-- The strict-shrink property of the rest component of `split_one`. -/
theorem split_one_rest_card (mas : MAS σ Agent Action) (A : List Agent)
    (a : Agent) {moves : BDD σ Agent Action} (hm : moves ≠ ∅) :
    ∀ t ∈ split_one mas A a moves, t.2.2.card < moves.card := by
  intro t ht
  unfold split_one at ht
  rw [if_neg hm] at ht
  rcases split_one_aux_rest_card mas A a _ _ _ t ht with h | ⟨h, -⟩
  · exact h
  · exact absurd h hm

theorem split_conflicting_ne_nil (mas : MAS σ Agent Action)
    (A : List Agent) (a : Agent) {eqclass : BDD σ Agent Action}
    (h : eqclass ≠ ∅) {fuel : Nat} (hf : fuel ≠ 0) :
    split_conflicting mas A a fuel eqclass ≠ [] := by
  cases fuel with
  | zero => exact absurd rfl hf
  | succ fuel =>
    rw [split_conflicting, if_neg h]
    exact List.cons_ne_nil _ _

theorem split_one_aux_ne_nil (mas : MAS σ Agent Action) (A : List Agent)
    (a : Agent) :
    ∀ (fuel : Nat) (common moves : BDD σ Agent Action),
      moves.card < fuel → split_one_aux mas A a fuel common moves ≠ [] := by
  intro fuel
  induction fuel with
  | zero => intro common moves h; omega
  | succ fuel ih =>
    intro common moves h
    rw [split_one_aux]
    by_cases hm : moves = ∅
    · rw [if_pos hm]; exact List.cons_ne_nil _ _
    · rw [if_neg hm]
      split
      · have hne : moves ∩ get_equiv_class mas [a]
            (forsome inputsCube {mas.pick moves}) ≠ ∅ :=
          Finset.nonempty_iff_ne_empty.mp ⟨_, pick_mem_eqcl mas a hm⟩
        simp only [ne_eq, List.map_eq_nil_iff]
        exact split_conflicting_ne_nil mas A a hne
          (Nat.pos_iff_ne_zero.mp (Finset.card_pos.mpr
            (Finset.nonempty_iff_ne_empty.mpr hne)))
      · exact ih _ _ (Nat.lt_of_lt_of_le (eqcl_rest_card mas a hm)
          (Nat.lt_succ_iff.mp h))

theorem split_one_ne_nil (mas : MAS σ Agent Action) (A : List Agent)
    (a : Agent) (moves : BDD σ Agent Action) :
    split_one mas A a moves ≠ [] := by
  unfold split_one
  split
  · exact List.cons_ne_nil _ _
  · exact split_one_aux_ne_nil mas A a _ _ _ (Nat.lt_succ_self _)

theorem split_agent_aux_ne_nil (mas : MAS σ Agent Action) (A : List Agent)
    (a : Agent) :
    ∀ (fuel : Nat) (moves : BDD σ Agent Action),
      moves.card < fuel → split_agent_aux mas A a fuel moves ≠ [] := by
  intro fuel
  induction fuel with
  | zero => intro moves h; omega
  | succ fuel ih =>
    intro moves h
    rw [split_agent_aux]
    by_cases hm : moves = ∅
    · rw [if_pos hm]; exact List.cons_ne_nil _ _
    · rw [if_neg hm]
      intro hnil
      rw [List.flatMap_eq_nil_iff] at hnil
      obtain ⟨t, ht⟩ := List.exists_mem_of_ne_nil _
        (split_one_ne_nil mas A a moves)
      have hcard : t.2.2.card < fuel :=
        Nat.lt_of_lt_of_le (split_one_rest_card mas A a hm t ht)
          (Nat.lt_succ_iff.mp h)
      have := hnil _ ht
      rw [List.map_eq_nil_iff] at this
      exact ih t.2.2 hcard this

/-! ### Unions of yielded strategies -/

theorem foldl_union_eq_acc :
    ∀ (l : List (BDD σ Agent Action)) (a : BDD σ Agent Action),
      l.foldl (· ∪ ·) a = a ∪ unionList l := by
  intro l
  induction l with
  | nil => intro a; simp [unionList]
  | cons x l ih =>
    intro a
    simp only [unionList, List.foldl_cons]
    rw [ih (a ∪ x), ih (∅ ∪ x), Finset.empty_union, Finset.union_assoc]

theorem unionList_nil : unionList ([] : List (BDD σ Agent Action)) = ∅ :=
  rfl

theorem unionList_cons (x : BDD σ Agent Action)
    (l : List (BDD σ Agent Action)) :
    unionList (x :: l) = x ∪ unionList l := by
  simp only [unionList, List.foldl_cons]
  rw [foldl_union_eq_acc, Finset.empty_union]
  rfl

theorem unionList_append (l1 l2 : List (BDD σ Agent Action)) :
    unionList (l1 ++ l2) = unionList l1 ∪ unionList l2 := by
  induction l1 with
  | nil => simp [unionList_nil]
  | cons x l ih =>
    rw [List.cons_append, unionList_cons, ih, unionList_cons,
      Finset.union_assoc]

theorem unionList_flatMap {α : Type} (l : List α)
    (f : α → List (BDD σ Agent Action)) :
    unionList (l.flatMap f) =
      unionList (l.map fun x => unionList (f x)) := by
  induction l with
  | nil => rfl
  | cons x l ih =>
    rw [List.flatMap_cons, unionList_append, List.map_cons, unionList_cons,
      ih]

theorem unionList_map_union (c : BDD σ Agent Action)
    {l : List (BDD σ Agent Action)} (hl : l ≠ []) :
    unionList (l.map fun s => c ∪ s) = c ∪ unionList l := by
  induction l with
  | nil => exact absurd rfl hl
  | cons x l ih =>
    rw [List.map_cons, unionList_cons, unionList_cons]
    by_cases h : l = []
    · subst h; simp
    · rw [ih h]
      ext m
      simp only [Finset.mem_union]
      tauto

theorem unionList_map_union_union (c r : BDD σ Agent Action)
    {l : List (BDD σ Agent Action)} (hl : l ≠ []) :
    unionList (l.map fun s => c ∪ s ∪ r) = c ∪ unionList l ∪ r := by
  induction l with
  | nil => exact absurd rfl hl
  | cons x l ih =>
    rw [List.map_cons, unionList_cons, unionList_cons]
    by_cases h : l = []
    · subst h
      simp only [List.map_nil, unionList_nil]
      ext m
      simp only [Finset.mem_union, Finset.not_mem_empty, or_false]
    · rw [ih h]
      ext m
      simp only [Finset.mem_union]
      tauto

theorem split_conflicting_union (mas : MAS σ Agent Action)
    (A : List Agent) (a : Agent) :
    ∀ (fuel : Nat) (eqclass : BDD σ Agent Action), eqclass.card ≤ fuel →
      unionList (split_conflicting mas A a fuel eqclass) = eqclass := by
  intro fuel
  induction fuel with
  | zero =>
    intro eqclass h
    rw [Finset.card_eq_zero.mp (Nat.le_zero.mp h)]
    rfl
  | succ fuel ih =>
    intro eqclass h
    rw [split_conflicting]
    by_cases he : eqclass = ∅
    · rw [if_pos he, unionList_nil, he]
    · rw [if_neg he, unionList_cons]
      have hpick : mas.pick eqclass ∈ eqclass ∩
          forsome (Cube.join statesCube
            (Cube.minus inputsCube (inputsCubeFor {a})))
          {mas.pick eqclass} := by
        refine Finset.mem_inter.mpr ⟨pick_mem_of_ne mas he, ?_⟩
        rw [mem_forsome]
        exact ⟨mas.pick eqclass, Finset.mem_singleton_self _,
          Or.inl rfl, fun b hb => rfl⟩
      have hlt : (eqclass \ (eqclass ∩
          forsome (Cube.join statesCube
            (Cube.minus inputsCube (inputsCubeFor {a})))
          {mas.pick eqclass})).card < eqclass.card :=
        Finset.card_lt_card
          (Finset.sdiff_ssubset Finset.inter_subset_left ⟨_, hpick⟩)
      rw [ih _ (by omega)]
      exact Finset.union_sdiff_of_subset Finset.inter_subset_left

theorem split_one_aux_union (mas : MAS σ Agent Action) (A : List Agent)
    (a : Agent) :
    ∀ (fuel : Nat) (common moves : BDD σ Agent Action), moves.card < fuel →
      unionList ((split_one_aux mas A a fuel common moves).map
        fun t => t.1 ∪ t.2.1 ∪ t.2.2) = common ∪ moves := by
  intro fuel
  induction fuel with
  | zero => intro common moves h; omega
  | succ fuel ih =>
    intro common moves h
    rw [split_one_aux]
    by_cases hm : moves = ∅
    · rw [if_pos hm, hm]
      simp [unionList_cons, unionList_nil]
    · rw [if_neg hm]
      have hne : moves ∩ get_equiv_class mas [a]
          (forsome inputsCube {mas.pick moves}) ≠ ∅ :=
        Finset.nonempty_iff_ne_empty.mp ⟨_, pick_mem_eqcl mas a hm⟩
      split
      · rw [List.map_map]
        have hmaps : unionList ((split_conflicting mas A a
            (moves ∩ get_equiv_class mas [a]
              (forsome inputsCube {mas.pick moves})).card
            (moves ∩ get_equiv_class mas [a]
              (forsome inputsCube {mas.pick moves}))).map
            fun nc => common ∪ nc ∪
              (moves \ (moves ∩ get_equiv_class mas [a]
                (forsome inputsCube {mas.pick moves})))) =
            common ∪ (moves ∩ get_equiv_class mas [a]
              (forsome inputsCube {mas.pick moves})) ∪
              (moves \ (moves ∩ get_equiv_class mas [a]
                (forsome inputsCube {mas.pick moves}))) := by
          rw [unionList_map_union_union _ _
            (split_conflicting_ne_nil mas A a hne
              (Nat.pos_iff_ne_zero.mp (Finset.card_pos.mpr
                (Finset.nonempty_iff_ne_empty.mpr hne)))),
            split_conflicting_union mas A a _ _ (Nat.le_refl _)]
        refine Eq.trans ?_ (hmaps.trans ?_)
        · rfl
        · rw [Finset.union_assoc,
            Finset.union_sdiff_of_subset Finset.inter_subset_left]
      · rw [ih _ _ (Nat.lt_of_lt_of_le (eqcl_rest_card mas a hm)
          (Nat.lt_succ_iff.mp h)),
          Finset.union_assoc,
          Finset.union_sdiff_of_subset Finset.inter_subset_left]

theorem split_one_union (mas : MAS σ Agent Action) (A : List Agent)
    (a : Agent) (moves : BDD σ Agent Action) :
    unionList ((split_one mas A a moves).map
      fun t => t.1 ∪ t.2.1 ∪ t.2.2) = moves := by
  unfold split_one
  split
  · next hm => rw [hm]; simp [unionList_cons, unionList_nil]
  · rw [split_one_aux_union mas A a _ _ _ (Nat.lt_succ_self _),
      Finset.empty_union]

theorem split_agent_aux_union (mas : MAS σ Agent Action) (A : List Agent)
    (a : Agent) :
    ∀ (fuel : Nat) (moves : BDD σ Agent Action), moves.card < fuel →
      unionList (split_agent_aux mas A a fuel moves) = moves := by
  intro fuel
  induction fuel with
  | zero => intro moves h; omega
  | succ fuel ih =>
    intro moves h
    rw [split_agent_aux]
    by_cases hm : moves = ∅
    · rw [if_pos hm, hm]; simp [unionList_cons, unionList_nil]
    · rw [if_neg hm, unionList_flatMap]
      have hmap : ∀ t ∈ split_one mas A a moves,
          unionList ((split_agent_aux mas A a fuel t.2.2).map
            fun strat => t.1 ∪ t.2.1 ∪ strat) = t.1 ∪ t.2.1 ∪ t.2.2 := by
        intro t ht
        have hcard : t.2.2.card < fuel :=
          Nat.lt_of_lt_of_le (split_one_rest_card mas A a hm t ht)
            (Nat.lt_succ_iff.mp h)
        rw [unionList_map_union _ (split_agent_aux_ne_nil mas A a _ _ hcard),
          ih _ hcard]
      rw [List.map_congr_left hmap]
      exact split_one_union mas A a moves

theorem split_agent_union (mas : MAS σ Agent Action) (A : List Agent)
    (a : Agent) (moves : BDD σ Agent Action) :
    unionList (split_agent mas A a moves) = moves :=
  split_agent_aux_union mas A a _ _ (Nat.lt_succ_self _)

theorem split_union (mas : MAS σ Agent Action) :
    ∀ (agents : List Agent) (moves : BDD σ Agent Action),
      unionList (split mas agents moves) = moves := by
  intro agents
  induction agents with
  | nil =>
    intro moves
    simp [split, unionList_cons, unionList_nil]
  | cons a others ih =>
    intro moves
    rw [split, unionList_flatMap,
      List.map_congr_left (fun os _ => split_agent_union mas (a :: others)
        a os),
      List.map_id']
    exact ih moves

/-! ### Conflict-freedom of yielded strategies -/

theorem mem_cube_join_agent {a : Agent} {si m : σ × (Agent → Action)} :
    m ∈ forsome (Cube.join statesCube
        (Cube.minus inputsCube (inputsCubeFor {a})))
      ({si} : BDD σ Agent Action) ↔ si.2 a = m.2 a := by
  simp only [mem_forsome, Cube.join, Cube.minus, statesCube, inputsCube,
    inputsCubeFor, Finset.mem_singleton]
  constructor
  · rintro ⟨m', rfl, -, h2⟩
    apply h2
    simp
  · intro h
    refine ⟨si, rfl, Or.inl (by simp), fun b hb => ?_⟩
    simp only [Finset.empty_union, Finset.mem_sdiff, Finset.mem_univ,
      true_and, Finset.mem_singleton, not_not] at hb
    rw [hb]
    exact h

theorem split_conflicting_spec (mas : MAS σ Agent Action) (A : List Agent)
    (a : Agent) :
    ∀ (fuel : Nat) (eqclass : BDD σ Agent Action),
      ∀ nc ∈ split_conflicting mas A a fuel eqclass,
        nc ⊆ eqclass ∧ ∀ m1 ∈ nc, ∀ m2 ∈ nc, m1.2 a = m2.2 a := by
  intro fuel
  induction fuel with
  | zero => intro eqclass nc hnc; simp [split_conflicting] at hnc
  | succ fuel ih =>
    intro eqclass nc hnc
    rw [split_conflicting] at hnc
    by_cases he : eqclass = ∅
    · rw [if_pos he] at hnc; simp at hnc
    · rw [if_neg he] at hnc
      rcases List.mem_cons.mp hnc with rfl | hnc
      · refine ⟨Finset.inter_subset_left, ?_⟩
        intro m1 h1 m2 h2
        have e1 := mem_cube_join_agent.mp (Finset.mem_inter.mp h1).2
        have e2 := mem_cube_join_agent.mp (Finset.mem_inter.mp h2).2
        rw [← e1, e2]
      · obtain ⟨hsub, hsame⟩ := ih _ nc hnc
        exact ⟨hsub.trans Finset.sdiff_subset, hsame⟩

theorem obs_of_mem_eqs (mas : MAS σ Agent Action) (a : Agent)
    (si : σ × (Agent → Action)) {m : σ × (Agent → Action)}
    (h : m ∈ get_equiv_class mas [a] (forsome inputsCube {si})) :
    mas.obs a m.1 = mas.obs a si.1 := by
  unfold get_equiv_class at h
  simp only [List.foldl_cons, List.foldl_nil] at h
  rcases Finset.mem_union.mp h with h | h
  · rw [mem_forsome_inputs_singleton.mp h]
  · have h' := (Finset.mem_inter.mp h).1
    simp only [MAS.equivalent_states, Finset.mem_filter, Finset.mem_univ,
      true_and] at h'
    obtain ⟨m', hm', b, hb, hobs⟩ := h'
    rw [Finset.mem_singleton] at hb
    subst hb
    rw [hobs, mem_forsome_inputs_singleton.mp hm']

theorem mem_eqs_of_obs (mas : MAS σ Agent Action) (a : Agent)
    (si : σ × (Agent → Action)) {m : σ × (Agent → Action)}
    (hobs : mas.obs a m.1 = mas.obs a si.1) (hreach : m.1 ∈ mas.reachable) :
    m ∈ get_equiv_class mas [a] (forsome inputsCube {si}) := by
  unfold get_equiv_class
  simp only [List.foldl_cons, List.foldl_nil]
  apply Finset.mem_union_right
  refine Finset.mem_inter.mpr ⟨?_, ?_⟩
  · simp only [MAS.equivalent_states, Finset.mem_filter, Finset.mem_univ,
      true_and]
    exact ⟨si, subset_forsome_inputs _ (Finset.mem_singleton_self _),
      a, Finset.mem_singleton_self a, hobs⟩
  · simp only [MAS.reachable_states, lift, Finset.mem_filter,
      Finset.mem_univ, true_and]
    exact hreach

theorem not_conflicting_same_act (mas : MAS σ Agent Action)
    (A : List Agent) (a : Agent) {eqcl : BDD σ Agent Action}
    (h : is_conflicting mas A a eqcl = false) :
    ∀ m ∈ eqcl, m.2 a = (mas.pick eqcl).2 a := by
  intro m hm
  unfold is_conflicting at h
  rw [decide_eq_false_iff_not, not_not] at h
  have hsub : eqcl ⊆ eqcl ∩
      forsome (Cube.join statesCube
        (Cube.minus inputsCube (inputsCubeFor {a}))) {mas.pick eqcl} := by
    intro x hx
    by_contra hxn
    have : x ∈ (∅ : BDD σ Agent Action) := by
      rw [← h]; exact Finset.mem_sdiff.mpr ⟨hx, hxn⟩
    simp at this
  exact (mem_cube_join_agent.mp (Finset.mem_inter.mp (hsub hm)).2).symm

theorem NonConflicting.mono {mas : MAS σ Agent Action} {a : Agent}
    {s t : BDD σ Agent Action} (h : s ⊆ t)
    (hNC : NonConflicting mas a t) : NonConflicting mas a s :=
  fun m1 h1 m2 h2 => hNC m1 (h h1) m2 (h h2)

theorem split_one_aux_spec (mas : MAS σ Agent Action) (A : List Agent)
    (a : Agent) :
    ∀ (fuel : Nat) (common moves : BDD σ Agent Action),
      (∀ m ∈ moves, m.1 ∈ mas.reachable) →
      NonConflicting mas a common →
      (∀ m ∈ common, ∀ m' ∈ moves, mas.obs a m.1 ≠ mas.obs a m'.1) →
      ∀ t ∈ split_one_aux mas A a fuel common moves,
        NonConflicting mas a (t.1 ∪ t.2.1) ∧
        (∀ m ∈ t.1 ∪ t.2.1, ∀ m' ∈ t.2.2,
          mas.obs a m.1 ≠ mas.obs a m'.1) ∧
        t.2.2 ⊆ moves ∧ t.1 ∪ t.2.1 ⊆ common ∪ moves := by
  intro fuel
  induction fuel with
  | zero => intro common moves _ _ _ t ht; simp [split_one_aux] at ht
  | succ fuel ih =>
    intro common moves hreach hNCc hsep t ht
    rw [split_one_aux] at ht
    by_cases hm : moves = ∅
    · rw [if_pos hm] at ht
      simp only [List.mem_singleton] at ht
      subst ht
      refine ⟨by simpa [Finset.union_empty] using hNCc, ?_, ?_, ?_⟩
      · intro m _ m' hm'; simp at hm'
      · exact Finset.empty_subset _
      · rw [Finset.union_empty]; exact Finset.subset_union_left
    · rw [if_neg hm] at ht
      have hobs_eqcl : ∀ m ∈ moves ∩ get_equiv_class mas [a]
          (forsome inputsCube {mas.pick moves}),
          mas.obs a m.1 = mas.obs a (mas.pick moves).1 :=
        fun m hmem =>
          obs_of_mem_eqs mas a _ (Finset.mem_inter.mp hmem).2
      have hsep_new : ∀ m ∈ moves ∩ get_equiv_class mas [a]
          (forsome inputsCube {mas.pick moves}),
          ∀ m' ∈ moves \ (moves ∩ get_equiv_class mas [a]
            (forsome inputsCube {mas.pick moves})),
          mas.obs a m.1 ≠ mas.obs a m'.1 := by
        intro m hmem m' hm' heq
        have hm'm : m' ∈ moves := (Finset.mem_sdiff.mp hm').1
        have : m' ∈ moves ∩ get_equiv_class mas [a]
            (forsome inputsCube {mas.pick moves}) :=
          Finset.mem_inter.mpr ⟨hm'm,
            mem_eqs_of_obs mas a _
              (heq.symm.trans (hobs_eqcl m hmem)) (hreach m' hm'm)⟩
        exact (Finset.mem_sdiff.mp hm').2 this
      have heqcl_sub : moves ∩ get_equiv_class mas [a]
          (forsome inputsCube {mas.pick moves}) ⊆ moves :=
        Finset.inter_subset_left
      split at ht
      · -- a conflicting class was found: one triple per non-conflicting
        -- subset of it
        obtain ⟨nc, hncmem, rfl⟩ := List.mem_map.mp ht
        obtain ⟨hncsub, hncsame⟩ :=
          split_conflicting_spec mas A a _ _ nc hncmem
        have hnc_moves : nc ⊆ moves := hncsub.trans heqcl_sub
        refine ⟨?_, ?_, Finset.sdiff_subset, ?_⟩
        · intro m1 h1 m2 h2 hobs
          rcases Finset.mem_union.mp h1 with h1 | h1 <;>
            rcases Finset.mem_union.mp h2 with h2 | h2
          · exact hNCc m1 h1 m2 h2 hobs
          · exact absurd hobs (hsep m1 h1 m2 (hnc_moves h2))
          · exact absurd hobs.symm (hsep m2 h2 m1 (hnc_moves h1))
          · exact hncsame m1 h1 m2 h2
        · intro m hmem m' hm'
          rcases Finset.mem_union.mp hmem with h | h
          · exact hsep m h m' (Finset.sdiff_subset hm')
          · exact hsep_new m (hncsub h) m' hm'
        · exact Finset.union_subset Finset.subset_union_left
            (fun x hx => Finset.mem_union_right _ (hnc_moves hx))
      · -- the class is not conflicting: it joins the common part
        next hconf =>
        have hsame := not_conflicting_same_act mas A a
          (Bool.eq_false_iff.mpr hconf)
        have hNCc' : NonConflicting mas a (common ∪
            (moves ∩ get_equiv_class mas [a]
              (forsome inputsCube {mas.pick moves}))) := by
          intro m1 h1 m2 h2 hobs
          rcases Finset.mem_union.mp h1 with h1 | h1 <;>
            rcases Finset.mem_union.mp h2 with h2 | h2
          · exact hNCc m1 h1 m2 h2 hobs
          · exact absurd hobs (hsep m1 h1 m2 (heqcl_sub h2))
          · exact absurd hobs.symm (hsep m2 h2 m1 (heqcl_sub h1))
          · rw [hsame m1 h1, hsame m2 h2]
        have hsep' : ∀ m ∈ common ∪
            (moves ∩ get_equiv_class mas [a]
              (forsome inputsCube {mas.pick moves})),
            ∀ m' ∈ moves \ (moves ∩ get_equiv_class mas [a]
              (forsome inputsCube {mas.pick moves})),
            mas.obs a m.1 ≠ mas.obs a m'.1 := by
          intro m hmem m' hm'
          rcases Finset.mem_union.mp hmem with h | h
          · exact hsep m h m' (Finset.sdiff_subset hm')
          · exact hsep_new m h m' hm'
        obtain ⟨h1, h2, h3, h4⟩ := ih _ _
          (fun m hmem => hreach m (Finset.sdiff_subset hmem))
          hNCc' hsep' t ht
        refine ⟨h1, h2, h3.trans Finset.sdiff_subset, h4.trans ?_⟩
        apply Finset.union_subset
        · apply Finset.union_subset Finset.subset_union_left
          exact fun x hx => Finset.mem_union_right _ (heqcl_sub hx)
        · exact fun x hx =>
            Finset.mem_union_right _ (Finset.sdiff_subset hx)

theorem split_one_spec (mas : MAS σ Agent Action) (A : List Agent)
    (a : Agent) {moves : BDD σ Agent Action}
    (hreach : ∀ m ∈ moves, m.1 ∈ mas.reachable) :
    ∀ t ∈ split_one mas A a moves,
      NonConflicting mas a (t.1 ∪ t.2.1) ∧
      (∀ m ∈ t.1 ∪ t.2.1, ∀ m' ∈ t.2.2,
        mas.obs a m.1 ≠ mas.obs a m'.1) ∧
      t.2.2 ⊆ moves ∧ t.1 ∪ t.2.1 ⊆ moves := by
  intro t ht
  unfold split_one at ht
  split at ht
  · simp only [List.mem_singleton] at ht
    subst ht
    next hm =>
    subst hm
    refine ⟨?_, ?_, Finset.Subset.refl _, Finset.Subset.refl _⟩
    · intro m h1; simp at h1
    · intro m h1; simp at h1
  · obtain ⟨h1, h2, h3, h4⟩ := split_one_aux_spec mas A a _ _ _ hreach
      (fun m h => by simp at h) (fun m h => by simp at h) t ht
    rw [Finset.empty_union] at h4
    exact ⟨h1, h2, h3, h4⟩

theorem split_agent_aux_spec (mas : MAS σ Agent Action) (A : List Agent)
    (a : Agent) :
    ∀ (fuel : Nat) (moves : BDD σ Agent Action),
      (∀ m ∈ moves, m.1 ∈ mas.reachable) →
      ∀ strat ∈ split_agent_aux mas A a fuel moves,
        NonConflicting mas a strat ∧ strat ⊆ moves := by
  intro fuel
  induction fuel with
  | zero => intro moves _ strat h; simp [split_agent_aux] at h
  | succ fuel ih =>
    intro moves hreach strat hstrat
    rw [split_agent_aux] at hstrat
    by_cases hm : moves = ∅
    · rw [if_pos hm] at hstrat
      simp only [List.mem_singleton] at hstrat
      subst hstrat
      exact ⟨fun m h1 => by simp at h1, Finset.empty_subset _⟩
    · rw [if_neg hm] at hstrat
      obtain ⟨t, ht, hmem⟩ := List.mem_flatMap.mp hstrat
      obtain ⟨s', hs', rfl⟩ := List.mem_map.mp hmem
      obtain ⟨hNC12, hsep12, hrest, h12sub⟩ :=
        split_one_spec mas A a hreach t ht
      obtain ⟨hNCs', hs'sub⟩ := ih t.2.2
        (fun m hmem' => hreach m (hrest hmem')) s' hs'
      constructor
      · intro m1 h1 m2 h2 hobs
        rcases Finset.mem_union.mp h1 with h1 | h1 <;>
          rcases Finset.mem_union.mp h2 with h2 | h2
        · exact hNC12 m1 h1 m2 h2 hobs
        · exact absurd hobs (hsep12 m1 h1 m2 (hs'sub h2))
        · exact absurd hobs.symm (hsep12 m2 h2 m1 (hs'sub h1))
        · exact hNCs' m1 h1 m2 h2 hobs
      · exact Finset.union_subset h12sub (hs'sub.trans hrest)

theorem split_agent_spec (mas : MAS σ Agent Action) (A : List Agent)
    (a : Agent) {moves : BDD σ Agent Action}
    (hreach : ∀ m ∈ moves, m.1 ∈ mas.reachable) :
    ∀ strat ∈ split_agent mas A a moves,
      NonConflicting mas a strat ∧ strat ⊆ moves :=
  split_agent_aux_spec mas A a _ moves hreach

theorem split_spec (mas : MAS σ Agent Action) :
    ∀ (agents : List Agent) (moves : BDD σ Agent Action),
      (∀ m ∈ moves, m.1 ∈ mas.reachable) →
      ∀ strat ∈ split mas agents moves,
        (∀ ag ∈ agents, NonConflicting mas ag strat) ∧ strat ⊆ moves := by
  intro agents
  induction agents with
  | nil =>
    intro moves _ strat h
    simp only [split, List.mem_singleton] at h
    subst h
    exact ⟨fun ag hag => by simp at hag, Finset.Subset.refl _⟩
  | cons a others ih =>
    intro moves hreach strat h
    simp only [split] at h
    obtain ⟨os, hos, hstrat⟩ := List.mem_flatMap.mp h
    obtain ⟨hNCos, hossub⟩ := ih moves hreach os hos
    obtain ⟨hNCa, hsub⟩ := split_agent_spec mas (a :: others) a
      (fun m hm => hreach m (hossub hm)) strat hstrat
    refine ⟨?_, hsub.trans hossub⟩
    intro ag hag
    rcases List.mem_cons.mp hag with rfl | hag
    · exact hNCa
    · exact (hNCos ag hag).mono hsub

/-! ## Claim C4 -/

/-- C4 (counterexample): on the concrete system, splitting the move set
with one move at the reachable state 0 and one move with a different
action at the unreachable state 1 — both indistinguishable to the only
agent — yields a strategy that is conflicting, while its union is still
the input move set.  The claim as stated (every yielded strategy
non-conflicting) is therefore false. -/
theorem claim4_counterexample :
    ¬ (unionList (split cexMAS [(0 : Fin 1)]
          {⟨0, fun _ => 0⟩, ⟨1, fun _ => 1⟩}) =
        {⟨0, fun _ => 0⟩, ⟨1, fun _ => 1⟩} ∧
       ∀ strat ∈ split cexMAS [(0 : Fin 1)]
          ({⟨0, fun _ => 0⟩, ⟨1, fun _ => 1⟩} :
            BDD (Fin 2) (Fin 1) (Fin 2)),
        ∀ ag ∈ [(0 : Fin 1)], NonConflicting cexMAS ag strat) := by
  decide

/-- C4 (amended): for every coalition and move set `M`, the union of all
strategies yielded by `split(agents, M)` equals `M`; and provided every
move of `M` is at a reachable state, every yielded strategy is
non-conflicting for every agent of the coalition.  Amendment: the source
intersects equivalence classes with the reachable states
(common.py:380), so conflict-freedom is only guaranteed for moves at
reachable states. -/
theorem claim4_split_coverage (mas : MAS σ Agent Action)
    (agents : List Agent) (M : BDD σ Agent Action)
    (hreach : ∀ m ∈ M, m.1 ∈ mas.reachable) :
    unionList (split mas agents M) = M ∧
    ∀ strat ∈ split mas agents M,
      ∀ ag ∈ agents, NonConflicting mas ag strat :=
  ⟨split_union mas agents M,
   fun strat hstrat ag hag =>
     (split_spec mas agents M hreach strat hstrat).1 ag hag⟩

/-- Witness for C4 at a concrete instance whose moves are all at the
reachable state 0. -/
theorem claim4_split_coverage_witness :
    (∀ m ∈ ({⟨0, fun _ => 0⟩, ⟨0, fun _ => 1⟩} :
        BDD (Fin 2) (Fin 1) (Fin 2)), m.1 ∈ cexMAS.reachable) ∧
    (unionList (split cexMAS [0] {⟨0, fun _ => 0⟩, ⟨0, fun _ => 1⟩}) =
        {⟨0, fun _ => 0⟩, ⟨0, fun _ => 1⟩} ∧
      ∀ strat ∈ split cexMAS [0] ({⟨0, fun _ => 0⟩, ⟨0, fun _ => 1⟩} :
          BDD (Fin 2) (Fin 1) (Fin 2)),
        ∀ ag ∈ [(0 : Fin 1)], NonConflicting cexMAS ag strat) :=
  ⟨by decide,
   claim4_split_coverage cexMAS [0] {⟨0, fun _ => 0⟩, ⟨0, fun _ => 1⟩}
     (by decide)⟩

/-! ## Claim C8 -/

/-- C8: the Split Engine's enumeration is well-founded: the rest component
of every triple yielded by `split_one` on a non-empty move set is strictly
smaller than the move set, so the recursion of `split_agent` terminates and
`split` yields finitely many strategies (it is a total function into
lists in this embedding). -/
theorem claim8_split_one_shrinks (mas : MAS σ Agent Action)
    (A : List Agent) (a : Agent) (M : BDD σ Agent Action) (hM : M ≠ ∅) :
    ∀ t ∈ split_one mas A a M, t.2.2.card < M.card :=
  split_one_rest_card mas A a hM

/-- Witness for C8 at a concrete instance. -/
theorem claim8_split_one_shrinks_witness :
    (Finset.univ : BDD (Fin 2) (Fin 1) (Fin 2)) ≠ ∅ ∧
    ∀ t ∈ split_one cexMAS [0] 0 (Finset.univ : BDD (Fin 2) (Fin 1) (Fin 2)),
      t.2.2.card < (Finset.univ : BDD (Fin 2) (Fin 1) (Fin 2)).card :=
  ⟨by decide, claim8_split_one_shrinks cexMAS [0] 0 Finset.univ (by decide)⟩

/-! ## Theorems: the Memoization Layer -/

theorem cached_run_invariant
    (orig : BDD σ Agent Action → BDD σ Agent Action)
    (T initStates : BDD σ Agent Action)
    (horig : ∀ S, orig S = T ∩ S) :
    ∀ (qs : List (Option (BDD σ Agent Action)))
      (U : BDD σ Agent Action),
      cached_run orig initStates (some (T ∩ U, U \ T)) qs =
        (accUnions (qs.map fun q => q.getD initStates)).map
          (fun V => T ∩ (U ∪ V)) := by
  intro qs
  induction qs with
  | nil => intro U; rfl
  | cons q qs ih =>
    intro U
    have hins : (T ∩ U) ∪ (U \ T) = U := by
      ext m; simp only [Finset.mem_union, Finset.mem_inter,
        Finset.mem_sdiff]; tauto
    rw [cached_run, List.map_cons, accUnions, List.map_cons]
    by_cases hrem : q.getD initStates \ U = ∅
    · have hUS : U ∪ q.getD initStates = U := by
        rw [Finset.sdiff_eq_empty_iff_subset] at hrem
        exact Finset.union_eq_left.mpr hrem
      have hstep : cached_evalATLK orig initStates
          (some (T ∩ U, U \ T)) q = ((T ∩ U, U \ T), T ∩ U ∪ ∅) := by
        unfold cached_evalATLK
        rw [if_neg (by simp only [Option.getD_some, hins]; simpa using hrem)]
        rfl
      rw [hstep]
      congr 1
      · simp [hUS]
      · rw [ih U, List.map_map]
        apply List.map_congr_left
        intro y _
        simp only [Function.comp_apply]
        rw [← Finset.union_assoc, hUS]
    · have horem : orig (q.getD initStates \ U) =
          T ∩ (q.getD initStates \ U) := horig _
      have hsat : (T ∩ U) ∪ (T ∩ (q.getD initStates \ U)) =
          T ∩ (U ∪ q.getD initStates) := by
        ext m; simp only [Finset.mem_union, Finset.mem_inter,
          Finset.mem_sdiff]; tauto
      have hunsat : (U \ T) ∪ ((q.getD initStates \ U) \
          (T ∩ (q.getD initStates \ U))) =
          (U ∪ q.getD initStates) \ T := by
        ext m; simp only [Finset.mem_union, Finset.mem_inter,
          Finset.mem_sdiff]; tauto
      have hstep : cached_evalATLK orig initStates
          (some (T ∩ U, U \ T)) q =
          ((T ∩ (U ∪ q.getD initStates), (U ∪ q.getD initStates) \ T),
            T ∩ (U ∪ q.getD initStates)) := by
        unfold cached_evalATLK
        rw [if_pos (by simp only [Option.getD_some, hins]; simpa using hrem)]
        simp only [Option.getD_some, hins, horem, hsat, hunsat]
      rw [hstep]
      congr 1
      rw [ih (U ∪ q.getD initStates), List.map_map]
      apply List.map_congr_left
      intro y _
      simp only [Function.comp_apply]
      rw [Finset.union_assoc]

/-! ## Claim C5 -/

/-- C5: cache transparency of the memoized dispatcher.  Provided the
un-memoized algorithm is pointwise — it returns the satisfying subset of
whatever states it is queried on, `orig S = T ∩ S` for the formula's truth
set `T` — a sequence of memoized calls from an empty cache, with arbitrary
overlapping (or `None`) states arguments, returns at each call exactly the
un-memoized result on the union of the states queried so far, which also
equals that result restricted to those queried states. -/
theorem claim5_cache_transparency
    (orig : BDD σ Agent Action → BDD σ Agent Action)
    (T initStates : BDD σ Agent Action)
    (horig : ∀ S, orig S = T ∩ S)
    (qs : List (Option (BDD σ Agent Action))) :
    cached_run orig initStates none qs =
      (accUnions (qs.map fun q => q.getD initStates)).map
        (fun U => orig U) ∧
    cached_run orig initStates none qs =
      (accUnions (qs.map fun q => q.getD initStates)).map
        (fun U => orig U ∩ U) := by
  have hnone : cached_run orig initStates none qs =
      cached_run orig initStates (some (∅, ∅)) qs := by
    cases qs with
    | nil => rfl
    | cons q qs => rfl
  have hbase : (some ((∅ : BDD σ Agent Action), (∅ : BDD σ Agent Action)))
      = some (T ∩ ∅, ∅ \ T) := by simp
  have hrun := cached_run_invariant orig T initStates horig qs ∅
  constructor
  · rw [hnone, hbase, hrun]
    apply List.map_congr_left
    intro U _
    rw [horig U, Finset.empty_union]
  · rw [hnone, hbase, hrun]
    apply List.map_congr_left
    intro U _
    rw [horig U, Finset.empty_union, Finset.inter_assoc,
      Finset.inter_self]

/-- Witness for C5 at a concrete instance: two calls, the second with a
`None` states argument. -/
theorem claim5_cache_transparency_witness :
    (∀ S : BDD (Fin 2) (Fin 1) (Fin 2),
      (fun X => ({⟨0, fun _ => 0⟩} : BDD (Fin 2) (Fin 1) (Fin 2)) ∩ X) S =
        {⟨0, fun _ => 0⟩} ∩ S) ∧
    (cached_run (fun X => ({⟨0, fun _ => 0⟩} :
          BDD (Fin 2) (Fin 1) (Fin 2)) ∩ X)
        {⟨1, fun _ => 1⟩} none [some {⟨0, fun _ => 0⟩}, none] =
      (accUnions ([some {⟨0, fun _ => 0⟩}, none].map
        fun q => q.getD {⟨1, fun _ => 1⟩})).map
        (fun U => ({⟨0, fun _ => 0⟩} :
          BDD (Fin 2) (Fin 1) (Fin 2)) ∩ U) ∧
     cached_run (fun X => ({⟨0, fun _ => 0⟩} :
          BDD (Fin 2) (Fin 1) (Fin 2)) ∩ X)
        {⟨1, fun _ => 1⟩} none [some {⟨0, fun _ => 0⟩}, none] =
      (accUnions ([some {⟨0, fun _ => 0⟩}, none].map
        fun q => q.getD {⟨1, fun _ => 1⟩})).map
        (fun U => ({⟨0, fun _ => 0⟩} :
          BDD (Fin 2) (Fin 1) (Fin 2)) ∩ U ∩ U)) :=
  ⟨fun S => rfl,
   claim5_cache_transparency _ {⟨0, fun _ => 0⟩} {⟨1, fun _ => 1⟩}
     (fun S => rfl) [some {⟨0, fun _ => 0⟩}, none]⟩

/-- Witness for C7 at a concrete instance. -/
theorem claim7_filter_monotonicity_witness :
    ((∅ : BDD (Fin 2) (Fin 1) (Fin 2)) ⊆ Finset.univ) ∧
    ({(⟨0, fun _ => 0⟩ : Fin 2 × (Fin 1 → Fin 2))} ⊆
      (Finset.univ : BDD (Fin 2) (Fin 1) (Fin 2))) ∧
    ({(⟨0, fun _ => 0⟩ : Fin 2 × (Fin 1 → Fin 2))} ⊆
        filter_ceu cexMAS [0] ∅ {⟨0, fun _ => 0⟩} Finset.univ ∧
      filter_ceu cexMAS [0] ∅ {⟨0, fun _ => 0⟩} Finset.univ ⊆
        filter_ceu cexMAS [0] Finset.univ Finset.univ Finset.univ ∧
      filter_ceu cexMAS [0] ∅ {⟨0, fun _ => 0⟩} Finset.univ ⊆
        filter_cew cexMAS [0] ∅ {⟨0, fun _ => 0⟩} Finset.univ) :=
  ⟨by decide, by decide,
   claim7_filter_monotonicity cexMAS [0] ∅ {⟨0, fun _ => 0⟩}
     Finset.univ Finset.univ Finset.univ (by decide) (by decide)⟩

/-! ## Except-monad lemmas and dispatcher equations shared by the
dispatcher claims -/

theorem except_bind_ok {A B : Type} (a : A)
    (f : A → Except (PyError σ Agent) B) :
    (Except.ok a >>= f) = f a := rfl

theorem except_bind_error {A B : Type} (e : PyError σ Agent)
    (f : A → Except (PyError σ Agent) B) :
    ((Except.error e : Except (PyError σ Agent) A) >>= f) =
      Except.error e := rfl

/-- partial.py:106-112: the `AX` branch references the unbound name
`spec` and raises `NameError`. -/
theorem ax_partial_eq
    (es : MAS σ Agent Action → Formula σ Agent → BDD σ Agent Action →
      Bool → Except (PyError σ Agent) (BDD σ Agent Action))
    (mas : MAS σ Agent Action) (p : Formula σ Agent)
    (st : Option (BDD σ Agent Action)) (pf : Bool) :
    partial_evalATLK es mas (.AX p) st pf = .error (.nameError "spec") := by
  simp [partial_evalATLK]

/-- early.py:106-112: the `AX` branch references the unbound name `spec`
and raises `NameError`. -/
theorem ax_early_eq
    (es : MAS σ Agent Action → Formula σ Agent → BDD σ Agent Action →
      Bool → Except (PyError σ Agent) (BDD σ Agent Action))
    (mas : MAS σ Agent Action) (p : Formula σ Agent)
    (st : Option (BDD σ Agent Action)) (pf : Bool) :
    early_evalATLK es mas (.AX p) st pf = .error (.nameError "spec") := by
  simp [early_evalATLK]

/-- backward.py:113-119: the `AX` branch references the unbound name
`spec` and raises `NameError`. -/
theorem ax_backward_eq
    (es : MAS σ Agent Action → Formula σ Agent → BDD σ Agent Action →
      Except (PyError σ Agent) (BDD σ Agent Action))
    (mas : MAS σ Agent Action) (p : Formula σ Agent)
    (st : Option (BDD σ Agent Action)) (pf : Bool) :
    backward_evalATLK es mas (.AX p) st pf = .error (.nameError "spec") := by
  simp [backward_evalATLK]

/-- naive.py:63-66: the `AX` branch computes `¬EX¬p`, so it agrees with
evaluating the rewritten formula. -/
theorem ax_naive_eq
    (es : MAS σ Agent Action → Formula σ Agent → Bool →
      Except (PyError σ Agent) (BDD σ Agent Action))
    (mas : MAS σ Agent Action) (p : Formula σ Agent) (pf : Bool) :
    naive_evalATLK es mas (.AX p) pf =
      naive_evalATLK es mas (.Not (.EX (.Not p))) pf := by
  cases h : naive_evalATLK es mas p pf with
  | error e => simp [naive_evalATLK, h, except_bind_error]
  | ok x => simp [naive_evalATLK, h, except_bind_ok]

/-- symbolic.py:64-67: the `AX` branch computes `¬EX¬p`, so it agrees
with evaluating the rewritten formula. -/
theorem ax_symbolic_eq
    (es : MAS σ Agent Action → Formula σ Agent → Bool →
      Except (PyError σ Agent) (BDD σ Agent Action))
    (mas : MAS σ Agent Action) (p : Formula σ Agent) (pf : Bool) :
    symbolic_evalATLK es mas (.AX p) pf =
      symbolic_evalATLK es mas (.Not (.EX (.Not p))) pf := by
  cases h : symbolic_evalATLK es mas p pf with
  | error e => simp [symbolic_evalATLK, h, except_bind_error]
  | ok x => simp [symbolic_evalATLK, h, except_bind_ok]

/-- partial.py:239-246: the `nC` and `C` branches go through `Cequiv`,
which raises `NameError: name 'fsm' is not defined` (utils.py:73-83). -/
theorem nc_partial_eq
    (es : MAS σ Agent Action → Formula σ Agent → BDD σ Agent Action →
      Bool → Except (PyError σ Agent) (BDD σ Agent Action))
    (mas : MAS σ Agent Action) (g : List Agent) (p : Formula σ Agent)
    (st : Option (BDD σ Agent Action)) (pf : Bool) :
    partial_evalATLK es mas (.nC g p) st pf = .error (.nameError "fsm") ∧
    partial_evalATLK es mas (.C g p) st pf = .error (.nameError "fsm") := by
  constructor <;>
    simp [partial_evalATLK, Cequiv, except_bind_error]

/-- early.py:239-246: the `nC` and `C` branches go through `Cequiv`,
which raises `NameError: name 'fsm' is not defined` (utils.py:73-83). -/
theorem nc_early_eq
    (es : MAS σ Agent Action → Formula σ Agent → BDD σ Agent Action →
      Bool → Except (PyError σ Agent) (BDD σ Agent Action))
    (mas : MAS σ Agent Action) (g : List Agent) (p : Formula σ Agent)
    (st : Option (BDD σ Agent Action)) (pf : Bool) :
    early_evalATLK es mas (.nC g p) st pf = .error (.nameError "fsm") ∧
    early_evalATLK es mas (.C g p) st pf = .error (.nameError "fsm") := by
  constructor <;>
    simp [early_evalATLK, Cequiv, except_bind_error]

/-- backward.py:246-253: the `nC` and `C` branches go through `Cequiv`,
which raises `NameError: name 'fsm' is not defined` (utils.py:73-83). -/
theorem nc_backward_eq
    (es : MAS σ Agent Action → Formula σ Agent → BDD σ Agent Action →
      Except (PyError σ Agent) (BDD σ Agent Action))
    (mas : MAS σ Agent Action) (g : List Agent) (p : Formula σ Agent)
    (st : Option (BDD σ Agent Action)) (pf : Bool) :
    backward_evalATLK es mas (.nC g p) st pf = .error (.nameError "fsm") ∧
    backward_evalATLK es mas (.C g p) st pf = .error (.nameError "fsm") := by
  constructor <;>
    simp [backward_evalATLK, Cequiv, except_bind_error]

/-! ## Absence of the unsupported-formula error on supported formulas -/

theorem ne_notImpl_ok {A : Type} (a : A) (r : Formula σ Agent) :
    (Except.ok a : Except (PyError σ Agent) A) ≠
      Except.error (.notImplemented r) := by
  simp

theorem ne_notImpl_nameError {A : Type} (s : String) (r : Formula σ Agent) :
    (Except.error (.nameError s) : Except (PyError σ Agent) A) ≠
      Except.error (.notImplemented r) := by
  simp

theorem ne_notImpl_bind {A B : Type} (x : Except (PyError σ Agent) A)
    (f : A → Except (PyError σ Agent) B)
    (hx : ∀ r, x ≠ Except.error (.notImplemented r))
    (hf : ∀ a r, f a ≠ Except.error (.notImplemented r)) :
    ∀ r, (x >>= f) ≠ Except.error (.notImplemented r) := by
  intro r
  cases x with
  | error e =>
    intro h
    rw [except_bind_error] at h
    simp only [Except.error.injEq] at h
    exact hx r (by rw [h])
  | ok a => intro h; rw [except_bind_ok] at h; exact hf a r h

/-- backward.py never raises `NotImplementedError` on a formula all of
whose subformulas avoid `CAU`, `CAF`, `CEW` and `CEG`, provided the
strategic-case evaluator never does. -/
theorem backward_no_unsupported_error
    (es : MAS σ Agent Action → Formula σ Agent → BDD σ Agent Action →
      Except (PyError σ Agent) (BDD σ Agent Action))
    (mas : MAS σ Agent Action)
    (hes : ∀ f s r, es mas f s ≠ Except.error (.notImplemented r)) :
    ∀ (n : Nat) (f : Formula σ Agent) (st : Option (BDD σ Agent Action))
      (pf : Bool), wt f ≤ n → backward_supported f = true →
      ∀ r, backward_evalATLK es mas f st pf ≠
        Except.error (.notImplemented r) := by
  intro n
  induction n with
  | zero =>
    intro f st pf hle _ r
    exact absurd hle (by cases f <;> (simp only [wt]; omega))
  | succ n ih =>
    intro f st pf hle hsup
    cases f with
    | TrueExp => intro r; simp [backward_evalATLK]
    | FalseExp => intro r; simp [backward_evalATLK]
    | Init => intro r; simp [backward_evalATLK]
    | Reachable => intro r; simp [backward_evalATLK]
    | Atom v => intro r; simp [backward_evalATLK]
    | Not p =>
      intro r
      rw [backward_evalATLK.eq_def]
      simp only [wt] at hle
      simp only [backward_supported] at hsup
      exact ne_notImpl_bind _ _ (ih p _ pf (by omega) hsup)
        (fun a r' => ne_notImpl_ok _ _) r
    | And p q =>
      intro r
      rw [backward_evalATLK.eq_def]
      simp only [wt] at hle
      simp only [backward_supported, Bool.and_eq_true] at hsup
      exact ne_notImpl_bind _ _ (ih p _ pf (by omega) hsup.1)
        (fun a => ne_notImpl_bind _ _ (ih q _ pf (by omega) hsup.2)
          (fun b r' => ne_notImpl_ok _ _)) r
    | Or p q =>
      intro r
      rw [backward_evalATLK.eq_def]
      simp only [wt] at hle
      simp only [backward_supported, Bool.and_eq_true] at hsup
      exact ne_notImpl_bind _ _ (ih p _ pf (by omega) hsup.1)
        (fun a => ne_notImpl_bind _ _ (ih q _ pf (by omega) hsup.2)
          (fun b r' => ne_notImpl_ok _ _)) r
    | Implies p q =>
      intro r
      rw [backward_evalATLK.eq_def]
      simp only [wt] at hle
      simp only [backward_supported, Bool.and_eq_true] at hsup
      exact ih _ _ pf (by simp only [wt]; omega)
        (by simp [backward_supported, hsup.1, hsup.2]) r
    | Iff p q =>
      intro r
      rw [backward_evalATLK.eq_def]
      simp only [wt] at hle
      simp only [backward_supported, Bool.and_eq_true] at hsup
      exact ih _ _ pf (by simp only [wt]; omega)
        (by simp [backward_supported, hsup.1, hsup.2]) r
    | EX p =>
      intro r
      rw [backward_evalATLK.eq_def]
      simp only [wt] at hle
      simp only [backward_supported] at hsup
      exact ne_notImpl_bind _ _ (ih p _ pf (by omega) hsup)
        (fun a r' => ne_notImpl_ok _ _) r
    | AX p => intro r; simp [backward_evalATLK]
    | EG p =>
      intro r
      rw [backward_evalATLK.eq_def]
      simp only [wt] at hle
      simp only [backward_supported] at hsup
      exact ne_notImpl_bind _ _ (ih p _ pf (by omega) hsup)
        (fun a r' => ne_notImpl_ok _ _) r
    | AG p =>
      intro r
      rw [backward_evalATLK.eq_def]
      simp only [wt] at hle
      simp only [backward_supported] at hsup
      exact ih _ _ pf (by simp only [wt]; omega)
        (by simp [backward_supported, hsup]) r
    | EU p q =>
      intro r
      rw [backward_evalATLK.eq_def]
      simp only [wt] at hle
      simp only [backward_supported, Bool.and_eq_true] at hsup
      exact ne_notImpl_bind _ _ (ih p _ pf (by omega) hsup.1)
        (fun a => ne_notImpl_bind _ _ (ih q _ pf (by omega) hsup.2)
          (fun b r' => ne_notImpl_ok _ _)) r
    | AU p q =>
      intro r
      rw [backward_evalATLK.eq_def]
      simp only [wt] at hle
      simp only [backward_supported, Bool.and_eq_true] at hsup
      exact ih _ _ pf (by simp only [wt]; omega)
        (by simp [backward_supported, hsup.1, hsup.2]) r
    | EF p =>
      intro r
      rw [backward_evalATLK.eq_def]
      simp only [wt] at hle
      simp only [backward_supported] at hsup
      exact ih _ _ pf (by simp only [wt]; omega)
        (by simp [backward_supported, hsup]) r
    | AF p =>
      intro r
      rw [backward_evalATLK.eq_def]
      simp only [wt] at hle
      simp only [backward_supported] at hsup
      exact ih _ _ pf (by simp only [wt]; omega)
        (by simp [backward_supported, hsup]) r
    | EW p q =>
      intro r
      rw [backward_evalATLK.eq_def]
      simp only [wt] at hle
      simp only [backward_supported, Bool.and_eq_true] at hsup
      exact ih _ _ pf (by simp only [wt]; omega)
        (by simp [backward_supported, hsup.1, hsup.2]) r
    | AW p q =>
      intro r
      rw [backward_evalATLK.eq_def]
      simp only [wt] at hle
      simp only [backward_supported, Bool.and_eq_true] at hsup
      exact ih _ _ pf (by simp only [wt]; omega)
        (by simp [backward_supported, hsup.1, hsup.2]) r
    | nK a p =>
      intro r
      rw [backward_evalATLK.eq_def]
      simp only [wt] at hle
      simp only [backward_supported] at hsup
      exact ne_notImpl_bind _ _ (ih p _ pf (by omega) hsup)
        (fun x r' => ne_notImpl_ok _ _) r
    | K a p =>
      intro r
      rw [backward_evalATLK.eq_def]
      simp only [wt] at hle
      simp only [backward_supported] at hsup
      exact ih _ _ pf (by simp only [wt]; omega)
        (by simp [backward_supported, hsup]) r
    | nE g p =>
      intro r
      rw [backward_evalATLK.eq_def]
      simp only [wt] at hle
      simp only [backward_supported] at hsup
      exact ne_notImpl_bind _ _ (ih p _ pf (by omega) hsup)
        (fun x r' => ne_notImpl_ok _ _) r
    | E g p =>
      intro r
      rw [backward_evalATLK.eq_def]
      simp only [wt] at hle
      simp only [backward_supported] at hsup
      exact ih _ _ pf (by simp only [wt]; omega)
        (by simp [backward_supported, hsup]) r
    | nD g p =>
      intro r
      rw [backward_evalATLK.eq_def]
      simp only [wt] at hle
      simp only [backward_supported] at hsup
      exact ne_notImpl_bind _ _ (ih p _ pf (by omega) hsup)
        (fun x r' => ne_notImpl_ok _ _) r
    | D g p =>
      intro r
      rw [backward_evalATLK.eq_def]
      simp only [wt] at hle
      simp only [backward_supported] at hsup
      exact ih _ _ pf (by simp only [wt]; omega)
        (by simp [backward_supported, hsup]) r
    | nC g p =>
      intro r
      rw [backward_evalATLK.eq_def]
      simp only [wt] at hle
      simp only [backward_supported] at hsup
      exact ne_notImpl_bind _ _ (fun r' => by simp [Cequiv])
        (fun a => ne_notImpl_bind _ _ (ih p _ pf (by omega) hsup)
          (fun b r' => ne_notImpl_ok _ _)) r
    | C g p =>
      intro r
      rw [backward_evalATLK.eq_def]
      simp only [wt] at hle
      simp only [backward_supported] at hsup
      exact ih _ _ pf (by simp only [wt]; omega)
        (by simp [backward_supported, hsup]) r
    | CEX g p =>
      intro r
      rw [backward_evalATLK.eq_def]
      exact hes _ _ r
    | CAX g p =>
      intro r
      rw [backward_evalATLK.eq_def]
      simp only [wt] at hle
      simp only [backward_supported] at hsup
      exact ne_notImpl_bind _ _
        (ih (.CEX g (.Not p)) _ pf (by simp only [wt]; omega)
          (by simp [backward_supported, hsup]))
        (fun a r' => ne_notImpl_ok _ _) r
    | CEU g p q =>
      intro r
      rw [backward_evalATLK.eq_def]
      exact hes _ _ r
    | CAU g p q => simp [backward_supported] at hsup
    | CEW g p q => simp [backward_supported] at hsup
    | CAW g p q =>
      intro r
      rw [backward_evalATLK.eq_def]
      simp only [wt] at hle
      simp only [backward_supported, Bool.and_eq_true] at hsup
      exact ne_notImpl_bind _ _
        (ih (.CEU g (.Not q) (.And (.Not p) (.Not q))) _ pf
          (by simp only [wt]; omega)
          (by simp [backward_supported, hsup.1, hsup.2]))
        (fun a r' => ne_notImpl_ok _ _) r
    | CEF g p =>
      intro r
      rw [backward_evalATLK.eq_def]
      simp only [wt] at hle
      simp only [backward_supported] at hsup
      exact ih _ _ pf (by simp only [wt]; omega)
        (by simp [backward_supported, hsup]) r
    | CAF g p => simp [backward_supported] at hsup
    | CEG g p => simp [backward_supported] at hsup
    | CAG g p =>
      intro r
      rw [backward_evalATLK.eq_def]
      simp only [wt] at hle
      simp only [backward_supported] at hsup
      exact ne_notImpl_bind _ _
        (ih (.CEF g (.Not p)) _ pf (by simp only [wt]; omega)
          (by simp [backward_supported, hsup]))
        (fun a r' => ne_notImpl_ok _ _) r

/-- C1: the cross-algorithm agreement fails: on `AX True` (with any
strategic evaluators) the naive and symbolic dispatchers return a state
set while the partial, early and backward dispatchers raise
`NameError: name 'spec' is not defined` from their `AX` branches, so the
five implementations do not return the same StateSet. -/
theorem claim1_cross_algorithm_divergence :
    (∃ x, naive_evalATLK (fun _ _ _ => .ok ∅) cexMAS (.AX .TrueExp) false
      = .ok x) ∧
    (∃ x, symbolic_evalATLK (fun _ _ _ => .ok ∅) cexMAS (.AX .TrueExp)
      false = .ok x) ∧
    partial_evalATLK (fun _ _ _ _ => .ok ∅) cexMAS (.AX .TrueExp) none
      false = .error (.nameError "spec") ∧
    early_evalATLK (fun _ _ _ _ => .ok ∅) cexMAS (.AX .TrueExp) none
      false = .error (.nameError "spec") ∧
    backward_evalATLK (fun _ _ _ => .ok ∅) cexMAS (.AX .TrueExp) none
      false = .error (.nameError "spec") := by
  refine ⟨⟨(cexMAS.ex Finset.univᶜ)ᶜ, ?_⟩,
    ⟨(symbolic_ex cexMAS Finset.univᶜ)ᶜ, ?_⟩, ?_, ?_, ?_⟩
  · simp [naive_evalATLK, except_bind_ok]
  · simp [symbolic_evalATLK, except_bind_ok]
  · exact ax_partial_eq _ _ _ _ _
  · exact ax_early_eq _ _ _ _ _
  · exact ax_backward_eq _ _ _ _ _

/-- C2: in the partial, early and backward dispatchers the `AX` branch
builds `Not(EX(Not(spec.child)))` but the name `spec` is unbound there
(the parameter is named `formula`), so evaluating `AX p` raises
`NameError` instead of returning the complement of the evaluation of
`EX ¬p`; the naive and symbolic dispatchers do realise the rewrite
`AX p = ¬EX¬p`. -/
theorem claim2_ax_name_error
    (esP esE : MAS σ Agent Action → Formula σ Agent → BDD σ Agent Action →
      Bool → Except (PyError σ Agent) (BDD σ Agent Action))
    (esB : MAS σ Agent Action → Formula σ Agent → BDD σ Agent Action →
      Except (PyError σ Agent) (BDD σ Agent Action))
    (esN esS : MAS σ Agent Action → Formula σ Agent → Bool →
      Except (PyError σ Agent) (BDD σ Agent Action))
    (mas : MAS σ Agent Action) (p : Formula σ Agent)
    (st : Option (BDD σ Agent Action)) (pf : Bool) :
    partial_evalATLK esP mas (.AX p) st pf = .error (.nameError "spec") ∧
    early_evalATLK esE mas (.AX p) st pf = .error (.nameError "spec") ∧
    backward_evalATLK esB mas (.AX p) st pf = .error (.nameError "spec") ∧
    naive_evalATLK esN mas (.AX p) pf =
      naive_evalATLK esN mas (.Not (.EX (.Not p))) pf ∧
    symbolic_evalATLK esS mas (.AX p) pf =
      symbolic_evalATLK esS mas (.Not (.EX (.Not p))) pf :=
  ⟨ax_partial_eq esP mas p st pf, ax_early_eq esE mas p st pf,
   ax_backward_eq esB mas p st pf, ax_naive_eq esN mas p pf,
   ax_symbolic_eq esS mas p pf⟩

/-- C6: the backward dispatcher raises `NotImplementedError` naming the
formula on `CAU`, `CAF`, `CEW` and `CEG` (and returns no result set);
on every formula all of whose subformulas avoid these four kinds, and
under a strategic evaluator that never raises it, the
unsupported-formula error is never raised. -/
theorem claim6_backward_unsupported
    (es : MAS σ Agent Action → Formula σ Agent → BDD σ Agent Action →
      Except (PyError σ Agent) (BDD σ Agent Action))
    (mas : MAS σ Agent Action)
    (hes : ∀ f s r, es mas f s ≠ Except.error (.notImplemented r))
    (g : List Agent) (p q : Formula σ Agent)
    (st : Option (BDD σ Agent Action)) (pf : Bool) :
    backward_evalATLK es mas (.CAU g p q) st pf =
        .error (.notImplemented (.CAU g p q)) ∧
    backward_evalATLK es mas (.CAF g p) st pf =
        .error (.notImplemented (.CAF g p)) ∧
    backward_evalATLK es mas (.CEW g p q) st pf =
        .error (.notImplemented (.CEW g p q)) ∧
    backward_evalATLK es mas (.CEG g p) st pf =
        .error (.notImplemented (.CEG g p)) ∧
    (∀ f : Formula σ Agent, backward_supported f = true →
      ∀ r, backward_evalATLK es mas f st pf ≠
        Except.error (.notImplemented r)) :=
  ⟨by simp [backward_evalATLK], by simp [backward_evalATLK],
   by simp [backward_evalATLK], by simp [backward_evalATLK],
   fun f hsup r =>
    backward_no_unsupported_error es mas hes (wt f) f st pf le_rfl hsup r⟩

/-- Witness for C6 at a concrete instance. -/
theorem claim6_backward_unsupported_witness :
    backward_evalATLK (fun _ _ _ => .ok ∅) cexMAS
        (.CAU [0] .TrueExp .FalseExp) none false =
      .error (.notImplemented (.CAU [0] .TrueExp .FalseExp)) ∧
    backward_evalATLK (fun _ _ _ => .ok ∅) cexMAS (.CAF [0] .TrueExp)
        none false =
      .error (.notImplemented (.CAF [0] .TrueExp)) ∧
    backward_evalATLK (fun _ _ _ => .ok ∅) cexMAS
        (.CEW [0] .TrueExp .FalseExp) none false =
      .error (.notImplemented (.CEW [0] .TrueExp .FalseExp)) ∧
    backward_evalATLK (fun _ _ _ => .ok ∅) cexMAS (.CEG [0] .TrueExp)
        none false =
      .error (.notImplemented (.CEG [0] .TrueExp)) ∧
    (∀ f : Formula (Fin 2) (Fin 1), backward_supported f = true →
      ∀ r, backward_evalATLK (fun _ _ _ => .ok ∅) cexMAS f none false ≠
        Except.error (.notImplemented r)) :=
  claim6_backward_unsupported (fun _ _ _ => .ok ∅) cexMAS
    (fun _ _ _ h => Except.noConfusion h) [0] .TrueExp .FalseExp none false

/-- C9: `check` looks the implementation up by name, evaluates the
formula with it, and reports whether `(~sat & statesInputsMask & init)`
is empty: for every known implementation name the result is the image of
the selected dispatcher's outcome under that emptiness test, and a
returned `true` means exactly that the set is empty. -/
theorem claim9_check_entry_point
    (esN : MAS σ Agent Action → Formula σ Agent → Bool →
      Except (PyError σ Agent) (BDD σ Agent Action))
    (esP esE : MAS σ Agent Action → Formula σ Agent → BDD σ Agent Action →
      Bool → Except (PyError σ Agent) (BDD σ Agent Action))
    (esS : MAS σ Agent Action → Formula σ Agent → Bool →
      Except (PyError σ Agent) (BDD σ Agent Action))
    (esB : MAS σ Agent Action → Formula σ Agent → BDD σ Agent Action →
      Except (PyError σ Agent) (BDD σ Agent Action))
    (mas : MAS σ Agent Action) (formula : Formula σ Agent) (pf : Bool) :
    (check esN esP esE esS esB mas formula "naive" pf =
      Except.map
        (fun sat =>
          decide ((satᶜ ∩ statesInputsMask ∩ mas.initStates) = ∅))
        (naive_evalATLK esN mas formula pf)) ∧
    (check esN esP esE esS esB mas formula "partial" pf =
      Except.map
        (fun sat =>
          decide ((satᶜ ∩ statesInputsMask ∩ mas.initStates) = ∅))
        (partial_evalATLK esP mas formula none pf)) ∧
    (check esN esP esE esS esB mas formula "early" pf =
      Except.map
        (fun sat =>
          decide ((satᶜ ∩ statesInputsMask ∩ mas.initStates) = ∅))
        (early_evalATLK esE mas formula none pf)) ∧
    (check esN esP esE esS esB mas formula "symbolic" pf =
      Except.map
        (fun sat =>
          decide ((satᶜ ∩ statesInputsMask ∩ mas.initStates) = ∅))
        (symbolic_evalATLK esS mas formula pf)) ∧
    (check esN esP esE esS esB mas formula "backward" pf =
      Except.map
        (fun sat =>
          decide ((satᶜ ∩ statesInputsMask ∩ mas.initStates) = ∅))
        (backward_evalATLK esB mas formula none pf)) ∧
    (∀ name evalFn,
      (implementationsList esN esP esE esS esB).lookup name =
        some evalFn →
      ∀ sat, evalFn mas formula pf = .ok sat →
        (check esN esP esE esS esB mas formula name pf = .ok true ↔
          satᶜ ∩ statesInputsMask ∩ mas.initStates = ∅)) := by
  refine ⟨?_, ?_, ?_, ?_, ?_, ?_⟩
  · cases h : naive_evalATLK esN mas formula pf <;>
      simp [check, implementationsList, List.lookup, h, Except.map,
        except_bind_ok, except_bind_error]
  · cases h : partial_evalATLK esP mas formula none pf <;>
      simp [check, implementationsList, List.lookup, h, Except.map,
        except_bind_ok, except_bind_error]
  · cases h : early_evalATLK esE mas formula none pf <;>
      simp [check, implementationsList, List.lookup, h, Except.map,
        except_bind_ok, except_bind_error]
  · cases h : symbolic_evalATLK esS mas formula pf <;>
      simp [check, implementationsList, List.lookup, h, Except.map,
        except_bind_ok, except_bind_error]
  · cases h : backward_evalATLK esB mas formula none pf <;>
      simp [check, implementationsList, List.lookup, h, Except.map,
        except_bind_ok, except_bind_error]
  · intro name evalFn hlook sat hsat
    simp [check, hlook, hsat, except_bind_ok, decide_eq_true_iff]

/-- C10: evaluating a common-knowledge formula (`nC`, or `C` which goes
through `nC`) with the partial, early or backward dispatcher yields
`NameError: name 'fsm' is not defined`: their `nC` branches call the
helper `Cequiv`, whose body references the undefined variable `fsm`, so
no call to `Cequiv` ever returns normally. -/
theorem claim10_common_knowledge_name_error
    (esP esE : MAS σ Agent Action → Formula σ Agent → BDD σ Agent Action →
      Bool → Except (PyError σ Agent) (BDD σ Agent Action))
    (esB : MAS σ Agent Action → Formula σ Agent → BDD σ Agent Action →
      Except (PyError σ Agent) (BDD σ Agent Action))
    (mas : MAS σ Agent Action) (g : List Agent) (p : Formula σ Agent)
    (st : Option (BDD σ Agent Action)) (pf : Bool) :
    partial_evalATLK esP mas (.nC g p) st pf = .error (.nameError "fsm") ∧
    partial_evalATLK esP mas (.C g p) st pf = .error (.nameError "fsm") ∧
    early_evalATLK esE mas (.nC g p) st pf = .error (.nameError "fsm") ∧
    early_evalATLK esE mas (.C g p) st pf = .error (.nameError "fsm") ∧
    backward_evalATLK esB mas (.nC g p) st pf =
      .error (.nameError "fsm") ∧
    backward_evalATLK esB mas (.C g p) st pf =
      .error (.nameError "fsm") :=
  ⟨(nc_partial_eq esP mas g p st pf).1, (nc_partial_eq esP mas g p st pf).2,
   (nc_early_eq esE mas g p st pf).1, (nc_early_eq esE mas g p st pf).2,
   (nc_backward_eq esB mas g p st pf).1,
   (nc_backward_eq esB mas g p st pf).2⟩

end ATLKirf
